import Mathlib

/-!
Verification model of the personal-agent file indexing, search and selection
subsystem (`file_control.py`, `transcript.py`, `session_state.py`).

Modelling conventions:
* Python floats (timestamps, rapidfuzz scores) are modelled by exact fractions
  `QE` (a numerator/denominator pair with a positive denominator), so that every
  arithmetic step of the source is reproduced exactly and remains executable by
  kernel reduction.  `QE.toRat` interprets a fraction as a rational number for
  the algebraic theorems.
* Python strings are Lean strings, manipulated exclusively through their
  character lists so every operation reduces.
* The SQLite `files` table is a list of rows in rowid (insertion) order with an
  autoincrement counter; `meta` is a key/value association list.
* `rapidfuzz.fuzz.token_set_ratio` is modelled faithfully from its published
  algorithm (sorted deduplicated whitespace tokens, intersection/difference
  decomposition, normalized indel similarity of the joined strings).
-/

/-! ## Exact fractions: model of Python float arithmetic -/

structure QE where
  num : Int
  den : Int
  dpos : 0 < den

instance : DecidableEq QE := fun q r =>
  if h1 : q.num = r.num then
    if h2 : q.den = r.den then
      isTrue (by cases q; cases r; dsimp at h1 h2; subst h1; subst h2; rfl)
    else isFalse (fun e => h2 (congrArg QE.den e))
  else isFalse (fun e => h1 (congrArg QE.num e))

def QE.ofInt (n : Int) : QE := ⟨n, 1, Int.zero_lt_one⟩

def QE.ofNat (n : Nat) : QE := ⟨(n : Int), 1, Int.zero_lt_one⟩

def QE.add (q r : QE) : QE :=
  ⟨q.num * r.den + r.num * q.den, q.den * r.den, mul_pos q.dpos r.dpos⟩

def QE.sub (q r : QE) : QE :=
  ⟨q.num * r.den - r.num * q.den, q.den * r.den, mul_pos q.dpos r.dpos⟩

def QE.mul (q r : QE) : QE :=
  ⟨q.num * r.num, q.den * r.den, mul_pos q.dpos r.dpos⟩

/-- Division of exact fractions; division by zero yields zero, matching the
division-by-zero convention of the rational numbers used in the theorems
(the modelled code never divides by zero on the paths exercised here). -/
def QE.div (q r : QE) : QE :=
  if h : 0 < r.num then ⟨q.num * r.den, q.den * r.num, mul_pos q.dpos h⟩
  else if h2 : r.num < 0 then
    ⟨-(q.num * r.den), q.den * (-r.num), mul_pos q.dpos (by omega)⟩
  else ⟨0, 1, Int.zero_lt_one⟩

def QE.ble (q r : QE) : Bool := decide (q.num * r.den ≤ r.num * q.den)

def QE.blt (q r : QE) : Bool := decide (q.num * r.den < r.num * q.den)

def QE.beq (q r : QE) : Bool := decide (q.num * r.den = r.num * q.den)

/-- Python `max(a, b)`: returns `a` when the two compare equal. -/
def QE.maxQ (q r : QE) : QE := if q.blt r then r else q

def QE.toRat (q : QE) : ℚ := (q.num : ℚ) / (q.den : ℚ)

/-! ## Character-list string utilities (Python string operations) -/

def strLower (s : String) : String := ⟨s.data.map Char.toLower⟩

def isPySpace (c : Char) : Bool :=
  c = ' ' || c = '\t' || c = '\n' || c = '\r' || c = '\x0b' || c = '\x0c'

/-- Python `str.strip()` with no arguments (whitespace on both ends). -/
def strStrip (s : String) : String :=
  ⟨((s.data.dropWhile fun c => isPySpace c).reverse.dropWhile fun c => isPySpace c).reverse⟩

/-- Contiguous-sublist test on character lists (used for Python `in` and for
the `%token%` form of SQL LIKE). -/
def subListChar (n : List Char) : List Char → Bool
  | [] => n.isPrefixOf []
  | c :: t => n.isPrefixOf (c :: t) || subListChar n t

/-- Python `needle in hay` substring test. -/
def strContains (hay needle : String) : Bool := subListChar needle.data hay.data

/-- Python `hay.startswith(pre)`; models the `LIKE 'pre%'` prefix query of the
store (SQL wildcard characters inside `pre` are not modelled; the roots used by
the program are plain paths). -/
def strStartsWith (s pre : String) : Bool := pre.data.isPrefixOf s.data

/-- Helper for `pySplitChars`: `acc` is the reversed current word. -/
def pySplitAux : List Char → List Char → List (List Char)
  | [], acc => if acc.isEmpty then [] else [acc.reverse]
  | c :: cs, acc =>
    if isPySpace c then
      if acc.isEmpty then pySplitAux cs [] else acc.reverse :: pySplitAux cs []
    else pySplitAux cs (c :: acc)

/-- Python `str.split()` with no arguments: split on whitespace runs, no empty
fields. -/
def pySplitChars (l : List Char) : List (List Char) := pySplitAux l []

def pySplit (s : String) : List String := (pySplitChars s.data).map fun l => ⟨l⟩

/-- Python `" ".join(parts)`. -/
def joinSpChars : List (List Char) → List Char
  | [] => []
  | [x] => x
  | x :: y :: t => x ++ ' ' :: joinSpChars (y :: t)

def isSepChar (c : Char) : Bool := c = '\\' || c = '/'

/-- `os.path.basename`: the part after the last path separator. -/
def basenameChars (cs : List Char) : List Char :=
  (cs.reverse.takeWhile (fun c => !isSepChar c)).reverse

def os_path_basename (s : String) : String := ⟨basenameChars s.data⟩

/-- The extension component of `os.path.splitext`: the suffix starting at the
last dot of the basename, empty when the basename has no dot or only leading
dots (so `.venv` has extension `""`). -/
def splitextExtChars (cs : List Char) : List Char :=
  let base := basenameChars cs
  let revAfter := base.reverse.takeWhile (fun c => c ≠ '.')
  if revAfter.length = base.length then []
  else
    let pre := base.take (base.length - revAfter.length - 1)
    if pre.any (fun c => c ≠ '.') then '.' :: revAfter.reverse else []

def os_path_splitext_ext (s : String) : String := ⟨splitextExtChars s.data⟩

/-- The root component of `os.path.splitext` (input minus its extension). -/
def os_path_splitext_root (s : String) : String :=
  ⟨s.data.take (s.data.length - (splitextExtChars s.data).length)⟩

/-- `file_control.normalize_filename`: drop the extension, replace `_` and `-`
by spaces, collapse whitespace, lowercase. -/
def normalize_filename (name : String) : String :=
  let stem := os_path_splitext_root name
  let repl := stem.data.map (fun c => if c = '_' || c = '-' then ' ' else c)
  strLower ⟨joinSpChars (pySplitChars repl)⟩

/-! ## rapidfuzz model -/

/-- Longest common subsequence length via row dynamic programming.
`lcsStep c b prevRow cur` computes the tail of the next row. -/
def lcsStep (c : Char) : List Char → List Nat → Nat → List Nat
  | [], _, _ => []
  | _ :: _, [], _ => []
  | d :: bs, pj :: rest, cur =>
    let v := if c = d then pj + 1 else Nat.max cur (rest.headD 0)
    v :: lcsStep c bs rest v

def lcsLen (a b : List Char) : Nat :=
  (a.foldl (fun row c => 0 :: lcsStep c b row 0) (List.replicate (b.length + 1) 0)).getLastD 0

/-- Indel (insertion/deletion) edit distance, as used by rapidfuzz's
normalized indel similarity. -/
def indelDist (a b : List Char) : Nat := a.length + b.length - 2 * lcsLen a b

def charLtB (c d : Char) : Bool := decide (c < d)

/-- Python string comparison (lexicographic on code points). -/
def strLtB : List Char → List Char → Bool
  | [], [] => false
  | [], _ :: _ => true
  | _ :: _, [] => false
  | c :: cs, d :: ds => if c = d then strLtB cs ds else charLtB c d

/-- Insert into a sorted duplicate-free list, dropping exact duplicates. -/
def insUnique (x : List Char) : List (List Char) → List (List Char)
  | [] => [x]
  | y :: ys =>
    if x = y then y :: ys
    else if strLtB x y then x :: y :: ys else y :: insUnique x ys

/-- Python `sorted(set(tokens))`. -/
def sortedTokenSet (l : List (List Char)) : List (List Char) :=
  l.foldl (fun acc x => insUnique x acc) []

def listHasTok (l : List (List Char)) (x : List Char) : Bool :=
  l.any (fun y => decide (y = x))

/-- rapidfuzz `norm_distance(dist, total)`: the normalized indel similarity
`100 * (1 - dist / total)` as an exact fraction. -/
def normRatio (dist total : Nat) : QE :=
  (QE.ofInt 100).mul ((QE.ofInt 1).sub ((QE.ofNat dist).div (QE.ofNat total)))

/-- Model of `rapidfuzz.fuzz.token_set_ratio` (score in 0..100): both inputs
are split into sorted deduplicated whitespace tokens; if one token set is a
subset of the other (with nonempty intersection) the score is 100; otherwise
the maximum of the normalized indel similarities between the joined
intersection and the two joined differences is returned. -/
def token_set_score (s1 s2 : String) : QE :=
  let ta := sortedTokenSet (pySplitChars s1.data)
  let tb := sortedTokenSet (pySplitChars s2.data)
  if ta.isEmpty || tb.isEmpty then QE.ofInt 0
  else
    let inter := ta.filter (fun t => listHasTok tb t)
    let dab := ta.filter (fun t => !listHasTok tb t)
    let dba := tb.filter (fun t => !listHasTok ta t)
    if !inter.isEmpty && (dab.isEmpty || dba.isEmpty) then QE.ofInt 100
    else
      let abJ := joinSpChars dab
      let baJ := joinSpChars dba
      let sl := (joinSpChars inter).length
      let abl := abJ.length
      let bal := baJ.length
      let bonus : Nat := if 0 < sl then 1 else 0
      let sabl := sl + bonus + abl
      let sbal := sl + bonus + bal
      let dist := indelDist abJ baJ
      let result := normRatio dist (sabl + sbal)
      if sl = 0 then result
      else
        let rab := normRatio (bonus + abl) (sl + sabl)
        let rba := normRatio (bonus + bal) (sl + sbal)
        QE.maxQ result (QE.maxQ rab rba)

/-! ## Store data model (`files` table, `meta` table) -/

structure Row where
  id : Nat
  name : String
  path : String
  type : String
  extension : String
  parent : String
  last_modified : QE
  size : Int
deriving DecidableEq

structure FileEntry where
  id : Nat
  name : String
  path : String
  type : String
  extension : String
deriving DecidableEq

structure DB where
  files : List Row
  meta : List (String × String)
  nextId : Nat
deriving DecidableEq

def emptyDB : DB := ⟨[], [], 1⟩

def rowToEntry (r : Row) : FileEntry := ⟨r.id, r.name, r.path, r.type, r.extension⟩

/-! ## Search (`file_control.search_files`) -/

def MIN_SCORE : QE := QE.ofInt 70

def extension_keywords : List (String × String) :=
  [("pdf", ".pdf"), ("word", ".docx"), ("doc", ".docx"), ("excel", ".xlsx"),
   ("sheet", ".xlsx"), ("powerpoint", ".pptx"), ("presentation", ".pptx")]

/-- One candidate row matches the SQL prefilter iff every token is a
case-insensitive substring of its name or of its path
(`name LIKE '%token%' OR path LIKE '%token%'`, conjoined over tokens). -/
def rowMatchesTokens (tokens : List String) (r : Row) : Bool :=
  tokens.all fun t =>
    strContains (strLower r.name) (strLower t) || strContains (strLower r.path) (strLower t)

/-- The per-candidate composite score computed inside the scoring loop of
`search_files` (fuzzy base, exact boost, filename priority boost, recency
boost, extension intent boost, folder context boost, depth penalty). -/
def scoreRow (normalized_query : String) (now : QE) (r : Row) : QE :=
  let filename := normalize_filename r.name
  let path_lower := strLower r.path
  let fuzzy_score := QE.maxQ (token_set_score normalized_query filename)
    (token_set_score normalized_query path_lower)
  let exact_boost :=
    if normalized_query = filename then QE.ofInt 40
    else if strContains filename normalized_query then QE.ofInt 20
    else QE.ofInt 0
  let name_vs_path_boost :=
    if strContains filename normalized_query then QE.ofInt 15 else QE.ofInt 0
  let age_days := (now.sub r.last_modified).div (QE.ofInt 86400)
  let recency_boost :=
    if age_days.blt (QE.ofInt 1) then QE.ofInt 20
    else if age_days.blt (QE.ofInt 7) then QE.ofInt 10
    else if age_days.blt (QE.ofInt 30) then QE.ofInt 5
    else QE.ofInt 0
  let extension_boost := extension_keywords.foldl
    (fun acc kv =>
      if strContains normalized_query kv.1 && decide (r.extension = kv.2) then QE.ofInt 25
      else acc)
    (QE.ofInt 0)
  let folder_boost := (pySplit normalized_query).foldl
    (fun acc token => if strContains path_lower token then acc.add (QE.ofInt 5) else acc)
    (QE.ofInt 0)
  let depth_penalty := (QE.ofNat (path_lower.data.count '\\')).mul ⟨1, 2, by omega⟩
  (((((fuzzy_score.add exact_boost).add name_vs_path_boost).add recency_boost).add
    extension_boost).add folder_boost).sub depth_penalty

/-- Stable insertion used to model Python's stable descending sort of
`(score, row)` pairs: an element is placed before the first element whose
score is less than or equal to its own, so earlier elements stay first on
ties. -/
def insertScoredDesc (x : QE × Row) : List (QE × Row) → List (QE × Row)
  | [] => [x]
  | y :: ys => if y.1.ble x.1 then x :: y :: ys else y :: insertScoredDesc x ys

def sortScoredDesc (l : List (QE × Row)) : List (QE × Row) :=
  l.foldr insertScoredDesc []

/-- `file_control.search_files`.  The prefilter SQL is built by joining one
`LIKE` clause per token with `AND`; with no tokens the generated statement is
`SELECT ... WHERE  LIMIT 300`, which sqlite3 rejects with an
`OperationalError`, modelled by the error result. -/
def search_files (db : DB) (query : String) (now : QE) (limit : Nat := 5) :
    Except String (List FileEntry) :=
  let normalized_query := normalize_filename query
  let tokens := pySplit normalized_query
  if tokens.isEmpty then
    Except.error "sqlite3.OperationalError: near LIMIT: syntax error"
  else
    let rows := (db.files.filter (rowMatchesTokens tokens)).take 300
    let matched := rows.filterMap (fun r =>
      let final_score := scoreRow normalized_query now r
      if MIN_SCORE.ble final_score then some (final_score, r) else none)
    Except.ok (((sortScoredDesc matched).take limit).map fun sr => rowToEntry sr.2)

/-! ## Spec-side score components (for the §4.3 decomposition) -/

def fuzzyBase (nq : String) (r : Row) : QE :=
  QE.maxQ (token_set_score nq (normalize_filename r.name))
    (token_set_score nq (strLower r.path))

def exactBoost (nq : String) (r : Row) : QE :=
  if nq = normalize_filename r.name then QE.ofInt 40
  else if strContains (normalize_filename r.name) nq then QE.ofInt 20
  else QE.ofInt 0

def nameVsPathBoost (nq : String) (r : Row) : QE :=
  if strContains (normalize_filename r.name) nq then QE.ofInt 15 else QE.ofInt 0

def recencyBoost (now : QE) (r : Row) : QE :=
  let age_days := (now.sub r.last_modified).div (QE.ofInt 86400)
  if age_days.blt (QE.ofInt 1) then QE.ofInt 20
  else if age_days.blt (QE.ofInt 7) then QE.ofInt 10
  else if age_days.blt (QE.ofInt 30) then QE.ofInt 5
  else QE.ofInt 0

def extensionIntentBoost (nq : String) (r : Row) : QE :=
  extension_keywords.foldl
    (fun acc kv =>
      if strContains nq kv.1 && decide (r.extension = kv.2) then QE.ofInt 25 else acc)
    (QE.ofInt 0)

def folderContextBoost (nq : String) (r : Row) : QE :=
  (pySplit nq).foldl
    (fun acc token => if strContains (strLower r.path) token then acc.add (QE.ofInt 5) else acc)
    (QE.ofInt 0)

/-- Half the number of path-separator (backslash) occurrences in the lowercased
path. -/
def depthPenalty (r : Row) : QE :=
  (QE.ofNat ((strLower r.path).data.count '\\')).mul ⟨1, 2, by omega⟩

/-! ## Unified entry point (`file_control.handle_file_action`) -/

/-- The value a `handle_file_action` call returns: Python `False`, `None`, or a
list of entries. -/
inductive PyRet where
  | retFalse
  | retNone
  | retList (l : List FileEntry)
deriving DecidableEq

/-- Observable outcome of a `handle_file_action` call: the entries passed to
`open_entry`, the directory listing printed by the list branch (first 30
items), and the returned value. -/
structure HFAOut where
  opened : List FileEntry
  listed : Option (List String)
  ret : PyRet
deriving DecidableEq

/-- `file_control.handle_file_action`.  `listdir` models `os.listdir` (`none`
means the OS call raises).  `open_entry` swallows its own errors and its result
is ignored by the caller, so opening is recorded in `opened` and never fails
the call. -/
def handle_file_action (listdir : String → Option (List String)) (db : DB) (now : QE)
    (action type target : String) : Except String HFAOut :=
  let action := strLower (strStrip action)
  let target := strStrip target
  match search_files db target now with
  | .error e => .error e
  | .ok matched =>
    if matched.isEmpty then
      Except.ok ⟨[], none, .retFalse⟩
    else if action = "open" ∧ type = "file" then
      let files := matched.filter (fun m => m.type = "file")
      if files.isEmpty then Except.ok ⟨[], none, .retNone⟩
      else if files.length = 1 then Except.ok ⟨files, none, .retNone⟩
      else Except.ok ⟨[], none, .retList files⟩
    else if action = "open" ∧ type = "folder" then
      let folders := matched.filter (fun m => m.type = "folder")
      if folders.isEmpty then Except.ok ⟨[], none, .retNone⟩
      else if folders.length = 1 then Except.ok ⟨folders, none, .retNone⟩
      else Except.ok ⟨[], none, .retList folders⟩
    else if action = "list" ∧ type = "folder" then
      let folders := matched.filter (fun m => m.type = "folder")
      match folders with
      | [] => Except.ok ⟨[], none, .retNone⟩
      | f :: _ =>
        match listdir f.path with
        | none => Except.error "OSError: listdir failed"
        | some items => Except.ok ⟨[], some (items.take 30), .retNone⟩
    else
      Except.ok ⟨[], none, .retFalse⟩

/-- Modelled from the amended claim wording: the case analysis
`handle_file_action` performs on the result of `search_files`: no search match
at all returns Python `False`; matches but none of the requested kind prints a
not-found message and returns `None`; exactly one match of the kind with
action `open` opens it and returns `None`; several matches with action `open`
return the filtered list; action `list` on kind `folder` prints the first 30
immediate children of the first matching folder and returns `None`; any other
action/kind combination returns `False`. -/
def hfaSpec (listdir : String → Option (List String)) (action type : String)
    (found : List FileEntry) : Except String HFAOut :=
  if found.isEmpty then Except.ok ⟨[], none, .retFalse⟩
  else if action = "open" ∧ type = "file" then
    match found.filter (fun m => m.type = "file") with
    | [] => Except.ok ⟨[], none, .retNone⟩
    | [f] => Except.ok ⟨[f], none, .retNone⟩
    | f1 :: f2 :: fs => Except.ok ⟨[], none, .retList (f1 :: f2 :: fs)⟩
  else if action = "open" ∧ type = "folder" then
    match found.filter (fun m => m.type = "folder") with
    | [] => Except.ok ⟨[], none, .retNone⟩
    | [f] => Except.ok ⟨[f], none, .retNone⟩
    | f1 :: f2 :: fs => Except.ok ⟨[], none, .retList (f1 :: f2 :: fs)⟩
  else if action = "list" ∧ type = "folder" then
    match found.filter (fun m => m.type = "folder") with
    | [] => Except.ok ⟨[], none, .retNone⟩
    | f :: _ =>
      match listdir f.path with
      | none => Except.error "OSError: listdir failed"
      | some items => Except.ok ⟨[], some (items.take 30), .retNone⟩
  else Except.ok ⟨[], none, .retFalse⟩

/-! ## Selection session (`session_state.py` and the selection memory block of
`transcript.py`, lines 142-221) -/

structure SessionState where
  pending_matches : List FileEntry
  last_action_type : Option String
deriving DecidableEq

def SessionState.has_pending (s : SessionState) : Bool :=
  decide (s.pending_matches.length > 0)

def SessionState.clear (_ : SessionState) : SessionState := ⟨[], none⟩

def cancel_phrases : List String :=
  ["cancel", "never mind", "forget it", "leave it", "stop that",
   "don\x27t open", "do not open"]

def selection_verbs : List String := ["open", "select", "choose", "pick"]

def option_words : List String := ["option", "choices", "list"]

def ordinal_map : List (String × Nat) :=
  [("first", 0), ("second", 1), ("third", 2), ("fourth", 3), ("fifth", 4)]

def number_word_map : List (String × Char) :=
  [("zero", '0'), ("one", '1'), ("two", '2'), ("three", '3'), ("four", '4'), ("five", '5')]

/-- Regex word-boundary character class (`\w`). -/
def isWordChar (c : Char) : Bool := c.isAlphanum || c = '_'

/-- Word-boundary check after a match: the character following the matched
word, if any, is not a word character. -/
def boundaryAfterOk (w : List Char) (l : List Char) : Bool :=
  match l.drop w.length with
  | [] => true
  | c2 :: _ => !isWordChar c2

/-- One pass of `re.sub(r"\bWORD\b", digit, text)`, by fuel-bounded structural
recursion (the fuel is the text length, so it never runs out): replaces
whole-word occurrences (word-boundary delimited) of `w` by the digit `d`.
`prevW` records whether the previous character of the original text is a word
character. -/
def replaceWordGo (w : List Char) (d : Char) : Nat → Bool → List Char → List Char
  | 0, _, l => l
  | _ + 1, _, [] => []
  | fuel + 1, prevW, c :: cs =>
    if w ≠ [] && !prevW && w.isPrefixOf (c :: cs) && boundaryAfterOk w (c :: cs) then
      d :: replaceWordGo w d fuel true ((c :: cs).drop w.length)
    else c :: replaceWordGo w d fuel (isWordChar c) cs

def replaceWordChars (w : List Char) (d : Char) (prevW : Bool) (l : List Char) : List Char :=
  replaceWordGo w d l.length prevW l

/-- `helpers.normalize_spoken_numbers`: sequentially replaces the spoken words
zero..five by digits, whole words only. -/
def normalize_spoken_numbers (text : String) : String :=
  number_word_map.foldl (fun t wd => ⟨replaceWordChars wd.1.data wd.2 false t.data⟩) text

def digitsToNat (l : List Char) : Nat :=
  l.foldl (fun n c => 10 * n + (c.toNat - '0'.toNat)) 0

/-- `re.search(r"\d+", s)` followed by `int(...)`: the first maximal digit run. -/
def firstNumber (s : String) : Option Nat :=
  let digits := (s.data.dropWhile (fun c => !c.isDigit)).takeWhile (fun c => c.isDigit)
  if digits.isEmpty then none else some (digitsToNat digits)

/-- Observable outcome of one utterance through the selection memory block. -/
inductive SelOutcome where
  | cancelled
  | shown
  | opened (e : FileEntry)
  | invalid
  | fallthrough
deriving DecidableEq

/-- The selection memory block of `transcript.py` (lines 142-221) applied to
one finalized lowercased utterance: cancel phrases clear the pending
selection; show-options phrases re-emit it; an utterance containing one of
open/select/choose/pick is scanned for a number (after spoken-number
normalization) and otherwise for an ordinal word; everything else falls
through to ordinary command handling with the session unchanged. -/
def selection_memory_step (s : SessionState) (lower_text : String) :
    SessionState × SelOutcome :=
  if s.has_pending then
    if cancel_phrases.any (fun p => strContains lower_text p) then
      (s.clear, .cancelled)
    else if (strContains lower_text "show"
          && option_words.any (fun w => strContains lower_text w))
        || strContains lower_text "repeat"
        || strContains lower_text "what were"
        || strContains lower_text "show again"
        || strContains lower_text "say again" then
      (s, .shown)
    else if selection_verbs.any (fun w => strContains lower_text w) then
      let normalized_text := normalize_spoken_numbers lower_text
      match firstNumber normalized_text with
      | some number =>
        let index : Int := (number : Int) - 1
        if h : 0 ≤ index ∧ index < (s.pending_matches.length : Int) then
          (s.clear, .opened (s.pending_matches.get ⟨index.toNat, by omega⟩))
        else (s, .invalid)
      | none =>
        match ordinal_map.find? (fun wi => strContains lower_text wi.1) with
        | some wi =>
          if h : wi.2 < s.pending_matches.length then
            (s.clear, .opened (s.pending_matches.get ⟨wi.2, h⟩))
          else (s, .invalid)
        | none => (s, .fallthrough)
    else (s, .fallthrough)
  else (s, .fallthrough)

/-! ## Filesystem and indexer model (`file_control` indexing) -/

/-- A filesystem object: regular file or directory with children.  The stat
data (`mtime`, `size`) is carried on the node; stat calls always succeed in
this model. -/
inductive FSEntry where
  | file (name : String) (mtime : QE) (size : Int)
  | dir (name : String) (mtime : QE) (size : Int) (children : List FSEntry)

def FSEntry.ename : FSEntry → String
  | .file n _ _ => n
  | .dir n _ _ _ => n

def FSEntry.emtime : FSEntry → QE
  | .file _ m _ => m
  | .dir _ m _ _ => m

def FSEntry.esize : FSEntry → Int
  | .file _ _ s => s
  | .dir _ _ s _ => s

def FSEntry.isDir : FSEntry → Bool
  | .file _ _ _ => false
  | .dir _ _ _ _ => true

def memStr (l : List String) (x : String) : Bool := l.any (fun y => decide (y = x))

/-- `file_control.EXCLUDED_DIRS`.  In the Python source the adjacent string
literals "Support Files" "Program Files" concatenate into a single set
element, so "Support Files" and "Program Files" are not individually
excluded. -/
def EXCLUDED_DIRS : List String :=
  ["node_modules", ".venv", "venv", ".cache", ".vscode", ".next", ".git",
   "__pycache__", "$RECYCLE.BIN", "System Volume Information", "AppData",
   "Support FilesProgram Files", "Program Files (x86)", "Windows"]

def INCLUDED_EXTENSIONS : List String :=
  [".txt", ".md", ".py", ".json", ".docx", ".pdf", ".xlsx", ".csv",
   ".pptx", ".html", ".js", ".ts"]

def EXCLUDED_EXTENSIONS : List String :=
  [".dll", ".exe", ".sys", ".tmp", ".log", ".cache", ".bin", ".dat", ".iso"]

/-- `file_control.should_index_file`: blacklisted extensions are always
rejected; the whitelist is configured non-empty, so membership in it is
additionally required. -/
def should_index_file (filename : String) : Bool :=
  let ext := strLower (os_path_splitext_ext filename)
  if memStr EXCLUDED_EXTENSIONS ext then false
  else memStr INCLUDED_EXTENSIONS ext

/-- `os.path.join` for Windows paths as used on walk results: append with a
backslash unless the left part is empty or already ends with a separator or a
drive colon. -/
def ntJoin (a b : String) : String :=
  match a.data.getLast? with
  | none => b
  | some c => if c = '\\' || c = '/' || c = ':' then a ++ b else a ++ "\\" ++ b

/-- One entry encountered during an `os.walk` traversal, in traversal order. -/
structure WalkItem where
  name : String
  path : String
  parent : String
  isFile : Bool
  mtime : QE
  size : Int
deriving DecidableEq

mutual
/-- `os.walk(p)` with the in-place pruning `dirs[:] = [d for d in dirs if d not
in EXCLUDED_DIRS]` performed by both indexing passes, flattened to the
per-triple sequence of directory entries followed by file entries (the order in
which both passes issue their store operations), followed by the recursive
walks of the surviving subdirectories. -/
def walkEntry (p : String) : FSEntry → List WalkItem
  | .file _ _ _ => []
  | .dir _ _ _ children =>
    let parent := os_path_basename p
    let pruned := children.filter (fun c => c.isDir && !(memStr EXCLUDED_DIRS c.ename))
    let fils := children.filter (fun c => !c.isDir)
    (pruned.map fun d => ⟨d.ename, ntJoin p d.ename, parent, false, d.emtime, d.esize⟩)
      ++ (fils.map fun f => ⟨f.ename, ntJoin p f.ename, parent, true, f.emtime, f.esize⟩)
      ++ walkChildren p children

/-- Recursive descent part of `walkEntry`: excluded directories are neither
recorded nor descended into. -/
def walkChildren (p : String) : List FSEntry → List WalkItem
  | [] => []
  | c :: cs =>
    (if c.isDir && !(memStr EXCLUDED_DIRS c.ename) then walkEntry (ntJoin p c.ename) c
     else [])
      ++ walkChildren p cs
end

/-- The world a pass runs against: an association of absolute root paths to
directory trees.  `os.walk` over a path that does not exist (or is a regular
file) yields nothing. -/
def walkOf (w : List (String × FSEntry)) (root : String) : List WalkItem :=
  match (w.find? (fun kv => decide (kv.1 = root))).map Prod.snd with
  | some e => walkEntry root e
  | none => []

def assocFind {α : Type} (m : List (String × α)) (key : String) : Option α :=
  (m.find? (fun kv => decide (kv.1 = key))).map Prod.snd

/-- Python dict insertion (`d[k] = v`): overwrite in place or append. -/
def assocSet {α : Type} (m : List (String × α)) (k : String) (v : α) :
    List (String × α) :=
  if m.any (fun kv => decide (kv.1 = k)) then
    m.map (fun kv => if kv.1 = k then (k, v) else kv)
  else m ++ [(k, v)]

/-- `INSERT OR IGNORE INTO files ...` keyed on the UNIQUE `path` column. -/
def insert_or_ignore (db : DB) (name path ty ext parent : String) (m : QE) (sz : Int) : DB :=
  if db.files.any (fun r => decide (r.path = path)) then db
  else ⟨db.files ++ [⟨db.nextId, name, path, ty, ext, parent, m, sz⟩], db.meta, db.nextId + 1⟩

/-- One store operation of the full rebuild: a directory entry is inserted as
a folder row, a file entry is inserted only if it passes the extension
policy. -/
def full_rebuild_step (db : DB) (it : WalkItem) : DB :=
  if it.isFile then
    if should_index_file it.name then
      insert_or_ignore db it.name it.path "file"
        (strLower (os_path_splitext_ext it.name)) it.parent it.mtime it.size
    else db
  else insert_or_ignore db it.name it.path "folder" "" it.parent it.mtime it.size

/-- `file_control.full_rebuild`: walk the tree; insert every surviving
directory as a folder row and every surviving file passing the extension
policy as a file row, with insert-if-absent semantics. -/
def full_rebuild (w : List (String × FSEntry)) (root : String) (db : DB) : DB :=
  (walkOf w root).foldl full_rebuild_step db

/-- The stored path-to-timestamp map loaded at the start of an incremental
update (`SELECT path, last_modified FROM files WHERE path LIKE 'root%'` into a
dict, later entries overwriting earlier ones as in a dict comprehension). -/
def db_files_map (db : DB) (root : String) : List (String × QE) :=
  db.files.foldl
    (fun m r => if strStartsWith r.path root then assocSet m r.path r.last_modified else m) []

/-- One walk entry of the incremental update: record the path as currently
present (before any filtering), then skip files failing the extension policy,
insert unknown paths, and refresh timestamp and size when the stored timestamp
differs. -/
def incremental_step (db_files : List (String × QE)) (acc : DB × List String)
    (it : WalkItem) : DB × List String :=
  let d := acc.1
  let current := acc.2 ++ [it.path]
  if it.isFile && !should_index_file it.name then (d, current)
  else
    let ext := if it.isFile then strLower (os_path_splitext_ext it.name) else ""
    let ty := if it.isFile then "file" else "folder"
    match assocFind db_files it.path with
    | none =>
      (⟨d.files ++ [⟨d.nextId, it.name, it.path, ty, ext, it.parent, it.mtime, it.size⟩],
        d.meta, d.nextId + 1⟩, current)
    | some m =>
      if !(m.beq it.mtime) then
        (⟨d.files.map (fun r =>
            if r.path = it.path then
              ⟨r.id, r.name, r.path, r.type, r.extension, r.parent, it.mtime, it.size⟩
            else r), d.meta, d.nextId⟩, current)
      else (d, current)

/-- `file_control.incremental_update`: load the stored path-to-timestamp map
for the root, re-walk with the same pruning and filtering, insert newly seen
paths, refresh timestamp and size where the stored timestamp differs, record
every encountered path (before the extension filter) as currently present, and
finally delete each stored path not observed in the walk. -/
def incremental_update (w : List (String × FSEntry)) (root : String) (db : DB) : DB :=
  let db_files := db_files_map db root
  let stepped := (walkOf w root).foldl (incremental_step db_files) (db, [])
  let deleted := (db_files.map Prod.fst).filter (fun p => !(memStr stepped.2 p))
  ⟨stepped.1.files.filter (fun r => !(memStr deleted r.path)), stepped.1.meta, stepped.1.nextId⟩

/-- `file_control.save_meta` (`INSERT OR REPLACE INTO meta`). -/
def save_meta (db : DB) (key value : String) : DB :=
  ⟨db.files, assocSet db.meta key value, db.nextId⟩

/-- String stored for `str(time.time())`; its exact shape is never inspected. -/
def timeString (now : QE) : String := toString now.num ++ "/" ++ toString now.den

/-- `file_control.ensure_single_root`: full rebuild on the first run for a
root (then mark it indexed), incremental update afterwards; always refresh
`last_index_time`. -/
def ensure_single_root (w : List (String × FSEntry)) (root : String) (now : QE)
    (db : DB) : DB :=
  let key := "root::" ++ root
  let db2 :=
    match assocFind db.meta key with
    | none => save_meta (full_rebuild w root db) key "indexed"
    | some _ => incremental_update w root db
  save_meta db2 "last_index_time" (timeString now)

/-- `file_control.ensure_index` (`init_db` creates the empty tables, modelled
by starting from a given store; `os.path.abspath` is the identity on the
already-absolute roots used here). -/
def ensure_index (w : List (String × FSEntry)) (roots : List String) (now : QE)
    (db : DB) : DB :=
  roots.foldl (fun db root => ensure_single_root w root now db) db

/-! ## Path segments (for the exclusion invariant) -/

/-- Replace the last element of a segment list by itself extended with `b`
(proof helper for segment decompositions). -/
def modLast : List (List Char) → List Char → List (List Char)
  | [], b => [b]
  | [x], b => [x ++ b]
  | x :: y :: xs, b => x :: modLast (y :: xs) b

def splitSepsChars : List Char → List (List Char)
  | [] => [[]]
  | c :: cs =>
    if isSepChar c then [] :: splitSepsChars cs
    else
      match splitSepsChars cs with
      | [] => [[c]]
      | s :: rest => (c :: s) :: rest

/-- The nonempty path segments of a path string (components between
separators). -/
def pathSegs (p : String) : List String :=
  ((splitSepsChars p.data).filter (fun s => !s.isEmpty)).map fun s => ⟨s⟩

/-- No path segment is the name of an excluded directory. -/
def cleanPathB (p : String) : Bool := (pathSegs p).all fun s => !(memStr EXCLUDED_DIRS s)

/-- Windows-legal object name: nonempty, no separators, no drive colon. -/
def goodName (n : String) : Bool :=
  !n.data.isEmpty && n.data.all (fun c => !isSepChar c && c ≠ ':')

mutual
/-- Every name in the tree is a legal filesystem object name. -/
def FSEntry.namesOk : FSEntry → Bool
  | .file n _ _ => goodName n
  | .dir n _ _ ch => goodName n && FSEntry.namesOkList ch

def FSEntry.namesOkList : List FSEntry → Bool
  | [] => true
  | c :: cs => FSEntry.namesOk c && FSEntry.namesOkList cs
end

def worldNamesOk (w : List (String × FSEntry)) : Bool :=
  w.all fun kv => FSEntry.namesOk kv.2

/-- One indexing pass: a world state, the roots indexed, and the clock. -/
structure IndexPass where
  world : List (String × FSEntry)
  roots : List String
  now : QE

def run_passes (passes : List IndexPass) (db : DB) : DB :=
  passes.foldl (fun db p => ensure_index p.world p.roots p.now db) db

/-! ## Concrete fixtures for counterexamples and witnesses -/

/-- Catalog with a single file whose score crosses the acceptance threshold
only while it is recent. -/
def db8 : DB :=
  ⟨[⟨1, "q.txt", "c:\\zeta\\q.txt", "file", ".txt", "zeta", QE.ofInt 0, 10⟩], [], 2⟩

def entry8 : FileEntry := ⟨1, "q.txt", "c:\\zeta\\q.txt", "file", ".txt"⟩

def pathA7 : String :=
  "c:\\d\\d\\d\\d\\d\\d\\d\\d\\d\\d\\d\\d\\d\\d\\d\\d\\d\\d\\d\\d\\report.txt"

/-- Exact-name match stored deep in the tree, long unmodified. -/
def rowA7 : Row := ⟨1, "report.txt", pathA7, "file", ".txt", "d", QE.ofInt 0, 5⟩

/-- Partial-name match stored at the drive root, freshly modified. -/
def rowB7 : Row := ⟨2, "reportx.txt", "c:\\reportx.txt", "file", ".txt", "c:", QE.ofInt 3450000, 5⟩

def db7 : DB := ⟨[rowA7, rowB7], [], 3⟩

def entryA7 : FileEntry := ⟨1, "report.txt", pathA7, "file", ".txt"⟩

def entryB7 : FileEntry := ⟨2, "reportx.txt", "c:\\reportx.txt", "file", ".txt"⟩

/-- Catalog holding one folder only, matched by the query "reports". -/
def db3 : DB :=
  ⟨[⟨1, "reports", "c:\\reports", "folder", "", "c:", QE.ofInt 0, 0⟩], [], 2⟩

/-- Catalog holding two folders matched by the query "reports". -/
def db3b : DB :=
  ⟨[⟨1, "reports", "c:\\reports", "folder", "", "c:", QE.ofInt 0, 0⟩,
    ⟨2, "reports", "c:\\a\\reports", "folder", "", "a", QE.ofInt 0, 0⟩], [], 3⟩

def ld3 : String → Option (List String) :=
  fun p => if p = "c:\\reports" then some ["a.txt", "b.txt"] else none

def entA : FileEntry := ⟨1, "A.txt", "c:\\A.txt", "file", ".txt"⟩

def entB : FileEntry := ⟨2, "B.txt", "c:\\B.txt", "file", ".txt"⟩

def entC : FileEntry := ⟨3, "C.txt", "c:\\C.txt", "file", ".txt"⟩

/-- PendingSelection = [A, B, C] of kind file, session awaiting selection. -/
def pend3 : SessionState := ⟨[entA, entB, entC], some "file"⟩

/-- World with two sibling roots where one root path is a string prefix of the
other. -/
def worldPfx : List (String × FSEntry) :=
  [("c:\\ab", .dir "ab" (QE.ofInt 0) 0 [.file "x.txt" (QE.ofInt 1) 1]),
   ("c:\\abc", .dir "abc" (QE.ofInt 0) 0 [.file "y.txt" (QE.ofInt 1) 1])]

def rootsPfx : List String := ["c:\\ab", "c:\\abc"]

/-- Small world for the idempotence and frame witnesses. -/
def world5 : List (String × FSEntry) :=
  [("c:\\r", .dir "r" (QE.ofInt 0) 0
    [.file "a.txt" (QE.ofInt 5) 1,
     .dir "sub" (QE.ofInt 3) 2 [.file "b.md" (QE.ofInt 4) 7]])]

/-- World whose root contains an excluded directory with a file inside. -/
def world6 : List (String × FSEntry) :=
  [("c:\\r", .dir "r" (QE.ofInt 0) 0
    [.dir "node_modules" (QE.ofInt 1) 0 [.file "hack.txt" (QE.ofInt 2) 3],
     .file "a.txt" (QE.ofInt 5) 1])]

/-- Store row whose extension fails the current filter rules but whose path
still exists on disk (as `c:\r\a.csv` will, in `world10`). -/
def world10 : List (String × FSEntry) :=
  [("c:\\r", .dir "r" (QE.ofInt 0) 0 [.file "a.xyz" (QE.ofInt 5) 1])]

def row10 : Row := ⟨7, "a.xyz", "c:\\r\\a.xyz", "file", ".xyz", "r", QE.ofInt 2, 9⟩

/-! ## QE interpretation lemmas -/

theorem QE.den_ne_zero_q (q : QE) : ((q.den : ℚ)) ≠ 0 := by
  have := q.dpos
  exact_mod_cast (by omega : (q.den : Int) ≠ 0)

theorem QE.toRat_ofInt (n : Int) : (QE.ofInt n).toRat = (n : ℚ) := by
  simp [QE.toRat, QE.ofInt]

theorem QE.toRat_ofNat (n : Nat) : (QE.ofNat n).toRat = (n : ℚ) := by
  simp [QE.toRat, QE.ofNat]

theorem QE.toRat_add (q r : QE) : (q.add r).toRat = q.toRat + r.toRat := by
  have hq := q.den_ne_zero_q
  have hr := r.den_ne_zero_q
  simp only [QE.toRat, QE.add]
  push_cast
  field_simp
  try ring

theorem QE.toRat_sub (q r : QE) : (q.sub r).toRat = q.toRat - r.toRat := by
  have hq := q.den_ne_zero_q
  have hr := r.den_ne_zero_q
  simp only [QE.toRat, QE.sub]
  push_cast
  field_simp
  try ring

theorem QE.toRat_mul (q r : QE) : (q.mul r).toRat = q.toRat * r.toRat := by
  simp only [QE.toRat, QE.mul]
  push_cast
  rw [div_mul_div_comm]

theorem QE.toRat_div (q r : QE) : (q.div r).toRat = q.toRat / r.toRat := by
  have hq := q.den_ne_zero_q
  have hr := r.den_ne_zero_q
  have key : ∀ a b c d : ℚ, b ≠ 0 → c ≠ 0 → d ≠ 0 →
      a * d / (b * c) = a / b / (c / d) := by
    intro a b c d hb hc hd
    field_simp
  rcases lt_trichotomy r.num 0 with h | h | h
  · have hn : ((r.num : ℚ)) ≠ 0 := by exact_mod_cast (by omega : (r.num : Int) ≠ 0)
    simp only [QE.div, dif_neg (by omega : ¬ 0 < r.num), dif_pos h, QE.toRat]
    push_cast
    rw [mul_neg, neg_div_neg_eq]
    exact key _ _ _ _ hq hn hr
  · simp only [QE.div, dif_neg (by omega : ¬ 0 < r.num), dif_neg (by omega : ¬ r.num < 0),
      QE.toRat, h]
    simp
  · have hn : ((r.num : ℚ)) ≠ 0 := by exact_mod_cast (by omega : (r.num : Int) ≠ 0)
    simp only [QE.div, dif_pos h, QE.toRat]
    push_cast
    exact key _ _ _ _ hq hn hr

theorem QE.ble_iff (q r : QE) : q.ble r = true ↔ q.toRat ≤ r.toRat := by
  have hq : (0 : ℚ) < (q.den : ℚ) := by exact_mod_cast q.dpos
  have hr : (0 : ℚ) < (r.den : ℚ) := by exact_mod_cast r.dpos
  simp only [QE.ble, decide_eq_true_eq, QE.toRat]
  rw [div_le_div_iff hq hr]
  exact_mod_cast Iff.rfl

theorem QE.blt_iff (q r : QE) : q.blt r = true ↔ q.toRat < r.toRat := by
  have hq : (0 : ℚ) < (q.den : ℚ) := by exact_mod_cast q.dpos
  have hr : (0 : ℚ) < (r.den : ℚ) := by exact_mod_cast r.dpos
  simp only [QE.blt, decide_eq_true_eq, QE.toRat]
  rw [div_lt_div_iff hq hr]
  exact_mod_cast Iff.rfl

theorem QE.beq_iff (q r : QE) : q.beq r = true ↔ q.toRat = r.toRat := by
  have hq : ((q.den : ℚ)) ≠ 0 := q.den_ne_zero_q
  have hr : ((r.den : ℚ)) ≠ 0 := r.den_ne_zero_q
  simp only [QE.beq, decide_eq_true_eq, QE.toRat]
  rw [div_eq_div_iff hq hr]
  exact_mod_cast Iff.rfl

theorem QE.toRat_maxQ (q r : QE) : (q.maxQ r).toRat = max q.toRat r.toRat := by
  unfold QE.maxQ
  by_cases h : q.blt r = true
  · rw [if_pos h]
    exact (max_eq_right (le_of_lt ((QE.blt_iff q r).mp h))).symm
  · rw [if_neg h]
    have : ¬ q.toRat < r.toRat := fun hc => h ((QE.blt_iff q r).mpr hc)
    exact (max_eq_left (not_lt.mp this)).symm

/-! ## General helper lemmas -/

theorem except_bind_ok {α β : Type} (a : α) (f : α → Except String β) :
    (Except.ok a : Except String α).bind f = f a := rfl

theorem isPrefixOf_self_char (l : List Char) : l.isPrefixOf l = true := by
  induction l with
  | nil => rfl
  | cons c t ih => simp [List.isPrefixOf, ih]

theorem strContains_self (s : String) : strContains s s = true := by
  unfold strContains
  cases h : s.data with
  | nil => rfl
  | cons c t => simp [subListChar, isPrefixOf_self_char]

theorem insUnique_length_ge (x : List Char) (l : List (List Char)) :
    l.length ≤ (insUnique x l).length := by
  induction l with
  | nil => simp [insUnique]
  | cons y ys ih =>
    unfold insUnique
    split_ifs <;> simp <;> omega

theorem foldl_insUnique_length (l : List (List Char)) (acc : List (List Char)) :
    acc.length ≤ (l.foldl (fun a x => insUnique x a) acc).length := by
  induction l generalizing acc with
  | nil => simp
  | cons x xs ih =>
    calc acc.length ≤ (insUnique x acc).length := insUnique_length_ge x acc
    _ ≤ _ := ih (insUnique x acc)

theorem sortedTokenSet_ne_nil {l : List (List Char)} (h : l ≠ []) :
    sortedTokenSet l ≠ [] := by
  cases l with
  | nil => exact absurd rfl h
  | cons x xs =>
    unfold sortedTokenSet
    intro hc
    have h1 : (insUnique x []).length ≤ (xs.foldl (fun a x => insUnique x a) (insUnique x [])).length :=
      foldl_insUnique_length xs (insUnique x [])
    simp only [List.foldl_cons] at hc
    rw [hc] at h1
    simp [insUnique] at h1

/-! ## Score decomposition (shared by C4 and C7) -/

theorem scoreRow_decomp (nq : String) (now : QE) (r : Row) :
    (scoreRow nq now r).toRat =
      (fuzzyBase nq r).toRat + (exactBoost nq r).toRat + (nameVsPathBoost nq r).toRat
        + (recencyBoost now r).toRat + (extensionIntentBoost nq r).toRat
        + (folderContextBoost nq r).toRat - (depthPenalty r).toRat := by
  simp only [scoreRow, fuzzyBase, exactBoost, nameVsPathBoost, recencyBoost,
    extensionIntentBoost, folderContextBoost, depthPenalty]
  rw [QE.toRat_sub, QE.toRat_add, QE.toRat_add, QE.toRat_add, QE.toRat_add, QE.toRat_add]

theorem normRatio_le_100 (d t : Nat) : (normRatio d t).toRat ≤ 100 := by
  rw [normRatio, QE.toRat_mul, QE.toRat_sub, QE.toRat_div, QE.toRat_ofInt, QE.toRat_ofInt,
    QE.toRat_ofNat, QE.toRat_ofNat]
  have h : (0 : ℚ) ≤ (d : ℚ) / (t : ℚ) := div_nonneg (by positivity) (by positivity)
  push_cast
  nlinarith

theorem QE.maxQ_le_toRat {q r : QE} {c : ℚ} (hq : q.toRat ≤ c) (hr : r.toRat ≤ c) :
    (q.maxQ r).toRat ≤ c := by
  rw [QE.toRat_maxQ]
  exact max_le hq hr

set_option maxHeartbeats 1000000 in
theorem token_set_score_le_100 (s1 s2 : String) : (token_set_score s1 s2).toRat ≤ 100 := by
  simp only [token_set_score]
  split_ifs
  case _ => rw [QE.toRat_ofInt]; norm_num
  case _ => rw [QE.toRat_ofInt]; norm_num
  case _ => exact normRatio_le_100 _ _
  case _ => exact normRatio_le_100 _ _
  all_goals
    exact QE.maxQ_le_toRat (normRatio_le_100 _ _)
      (QE.maxQ_le_toRat (normRatio_le_100 _ _) (normRatio_le_100 _ _))

theorem token_set_score_self (s : String) (h : pySplitChars s.data ≠ []) :
    token_set_score s s = QE.ofInt 100 := by
  have hta : sortedTokenSet (pySplitChars s.data) ≠ [] := sortedTokenSet_ne_nil h
  have hmem : ∀ t ∈ sortedTokenSet (pySplitChars s.data),
      listHasTok (sortedTokenSet (pySplitChars s.data)) t = true := by
    intro t ht
    simp only [listHasTok, List.any_eq_true]
    exact ⟨t, ht, by simp⟩
  have hinter : (sortedTokenSet (pySplitChars s.data)).filter
      (fun t => listHasTok (sortedTokenSet (pySplitChars s.data)) t)
      = sortedTokenSet (pySplitChars s.data) :=
    List.filter_eq_self.mpr (fun t ht => by simpa using hmem t ht)
  have hdab : (sortedTokenSet (pySplitChars s.data)).filter
      (fun t => !listHasTok (sortedTokenSet (pySplitChars s.data)) t) = [] := by
    rw [List.filter_eq_nil_iff]
    intro t ht
    simp [hmem t ht]
  have hta2 : (sortedTokenSet (pySplitChars s.data)).isEmpty = false := by
    cases hE : (sortedTokenSet (pySplitChars s.data)).isEmpty
    · rfl
    · exact absurd (List.isEmpty_iff.mp hE) hta
  simp only [token_set_score]
  rw [hinter, hdab]
  simp [hta2]

set_option maxRecDepth 8000

/-! ## C1 -/

/-- C1: the claim says `search` never raises and returns `[]` on an empty
query.  The code is a slip: for a query whose normalization yields no tokens
the generated SQL has an empty `WHERE` clause and sqlite3 raises an
`OperationalError`, so `search_files` on the empty query errors for every
catalog state instead of returning the empty list. -/
theorem search_files_empty_query_raises (db : DB) (now : QE) (limit : Nat) :
    search_files db "" now limit =
      Except.error "sqlite3.OperationalError: near LIMIT: syntax error" := rfl

/-! ## C4 -/

/-- C4: for every candidate row the composite score equals
fuzzyBase + exactBoost + nameVsPathBoost + recencyBoost + extensionIntentBoost
+ folderContextBoost minus depthPenalty, and depthPenalty is 0.5 times the
number of path-separator occurrences in the lowercased candidate path. -/
theorem composite_score_formula (nq : String) (now : QE) (r : Row) :
    (scoreRow nq now r).toRat =
      (fuzzyBase nq r).toRat + (exactBoost nq r).toRat + (nameVsPathBoost nq r).toRat
        + (recencyBoost now r).toRat + (extensionIntentBoost nq r).toRat
        + (folderContextBoost nq r).toRat - (depthPenalty r).toRat
    ∧ (depthPenalty r).toRat = (1 / 2 : ℚ) * (((strLower r.path).data.count '\\' : Nat) : ℚ) := by
  refine ⟨scoreRow_decomp nq now r, ?_⟩
  rw [depthPenalty, QE.toRat_mul, QE.toRat_ofNat]
  have hhalf : (QE.mk 1 2 (by omega)).toRat = (1 / 2 : ℚ) := by
    rw [QE.toRat]
    norm_num
  rw [hhalf]
  ring

/-! ## C8 -/

/-- C8 counterexample: the claim says any two executions of `search` with the
same query and catalog return the same list, but the score depends on the
wall clock (`time.time()` feeds the recency boost), so the same query against
the identical catalog returns the row while it is fresh and drops it once the
clock has advanced 40 days. -/
theorem search_two_executions_differ :
    search_files db8 "zeta" (QE.ofInt 1000) 5 = Except.ok [entry8]
      ∧ search_files db8 "zeta" (QE.ofInt 3456000) 5 = Except.ok []
      ∧ QE.ofInt 1000 ≠ QE.ofInt 3456000 := ⟨rfl, rfl, by decide⟩

/-- C8 amended: `search` is a pure function of the query, the catalog state,
and the clock reading: two executions with identical query, catalog, clock and
limit return the same ordered list. -/
theorem search_files_deterministic (db1 db2 : DB) (q1 q2 : String) (n1 n2 : QE)
    (l1 l2 : Nat) (hdb : db1 = db2) (hq : q1 = q2) (hn : n1 = n2) (hl : l1 = l2) :
    search_files db1 q1 n1 l1 = search_files db2 q2 n2 l2 := by
  subst hdb
  subst hq
  subst hn
  subst hl
  rfl

/-- Witness for the amended C8 determinism theorem at a concrete catalog,
query, clock and limit. -/
theorem search_files_deterministic_witness :
    search_files db8 "zeta" (QE.ofInt 1000) 5 = search_files db8 "zeta" (QE.ofInt 1000) 5 :=
  search_files_deterministic db8 db8 "zeta" "zeta" (QE.ofInt 1000) (QE.ofInt 1000) 5 5
    rfl rfl rfl rfl

/-! ## C9 -/

/-- C9: the claim (and the spec's error-handling design) require an unknown
action value to fail loudly, as `handle_app_action` does with `ValueError`.
`handle_file_action` instead falls through every branch and silently returns
`False` — the same value as the user-facing "not found" result.  The caller in
`transcript.py` really passes the unknown action "list_folder", so folder
listing always reports failure even when the folder was found: here the
catalog contains a matching folder and the call still returns `False` without
raising. -/
theorem handle_file_action_unknown_action_silent :
    handle_file_action ld3 db3 (QE.ofInt 0) "list_folder" "folder" "reports"
      = Except.ok ⟨[], none, PyRet.retFalse⟩ := rfl

/-! ## C2 -/

/-- C2 counterexample: the claim says the utterance "second" selects B, but
the ordinal branch of the selection block only runs when the utterance
contains one of open/select/choose/pick, and "second" contains none of them,
so the block falls through with the pending selection unchanged and opens
nothing. -/
theorem selection_second_alone_ignored :
    selection_memory_step pend3 "second" = (pend3, SelOutcome.fallthrough)
      ∧ pend3.pending_matches ≠ [] := ⟨rfl, by decide⟩

/-- C2 amended: with PendingSelection = [A, B, C] of kind file, "open number
two" opens B and clears the selection; a bare ordinal such as "second" is
ignored (an ordinal selects only together with one of open/select/choose/pick,
e.g. "select the second" opens B); "open number nine" leaves the pending
selection unchanged and still awaiting; and "cancel" empties the pending
selection from any session state. -/
theorem selection_protocol_behaviour :
    selection_memory_step pend3 "open number two" = (⟨[], none⟩, SelOutcome.opened entB)
      ∧ selection_memory_step pend3 "select the second" = (⟨[], none⟩, SelOutcome.opened entB)
      ∧ selection_memory_step pend3 "second" = (pend3, SelOutcome.fallthrough)
      ∧ selection_memory_step pend3 "open number nine" = (pend3, SelOutcome.fallthrough)
      ∧ ∀ s : SessionState, ((selection_memory_step s "cancel").1).pending_matches = [] := by
  refine ⟨rfl, rfl, rfl, rfl, fun s => ?_⟩
  unfold selection_memory_step
  by_cases h : s.has_pending = true
  · rw [if_pos h, if_pos (by decide)]
    rfl
  · rw [if_neg h]
    have hlen : s.pending_matches.length = 0 := by
      by_contra hc
      exact h (by simp [SessionState.has_pending]; omega)
    exact List.length_eq_zero.mp hlen

/-! ## C3 -/

/-- C3 counterexample: the claim says that when the kind-filtered match list
is empty the call returns `false`, and that more than one remaining match is
returned as the list.  On a catalog whose only search hit for "reports" is a
folder, `open file reports` returns `None` (not `False`); and with two
matching folders, `list folder reports` does not return the filtered list but
lists the first folder's children and returns `None`. -/
theorem handle_file_action_return_shape_counterexample :
    handle_file_action ld3 db3 (QE.ofInt 0) "open" "file" "reports"
        = Except.ok ⟨[], none, PyRet.retNone⟩
      ∧ handle_file_action ld3 db3b (QE.ofInt 0) "list" "folder" "reports"
        = Except.ok ⟨[], some ["a.txt", "b.txt"], PyRet.retNone⟩
      ∧ PyRet.retNone ≠ PyRet.retFalse := ⟨rfl, rfl, by decide⟩

/-- C3 amended: `handle_file_action` runs `search` on the stripped target and
then: if the search returned no match at all, it returns `false`; if matches
exist but none of the requested kind remains after filtering, it reports
not-found and returns `none`; exactly one remaining match with action `open`
is opened and `none` is returned; more than one remaining match with action
`open` is returned as the filtered list; action `list` on kind `folder` prints
the first 30 immediate children of the first matching folder and returns
`none`; any other action/kind combination returns `false`. -/
theorem handle_file_action_case_analysis (ld : String → Option (List String))
    (db : DB) (now : QE) (action type target : String) :
    handle_file_action ld db now action type target
      = (search_files db (strStrip target) now).bind
          (hfaSpec ld (strLower (strStrip action)) type) := by
  unfold handle_file_action
  dsimp only
  cases hs : search_files db (strStrip target) now with
  | error e => rfl
  | ok m =>
    dsimp only
    rw [except_bind_ok]
    unfold hfaSpec
    by_cases h0 : m.isEmpty = true
    · rw [if_pos h0, if_pos h0]
    · rw [if_neg h0, if_neg h0]
      by_cases h1 : strLower (strStrip action) = "open" ∧ type = "file"
      · rw [if_pos h1, if_pos h1]
        cases hf : m.filter (fun mm => mm.type = "file") with
        | nil => simp [hf]
        | cons f fs =>
          cases fs with
          | nil => simp [hf]
          | cons f2 fs2 => simp [hf]
      · rw [if_neg h1, if_neg h1]
        by_cases h2 : strLower (strStrip action) = "open" ∧ type = "folder"
        · rw [if_pos h2, if_pos h2]
          cases hf : m.filter (fun mm => mm.type = "folder") with
          | nil => simp [hf]
          | cons f fs =>
            cases fs with
            | nil => simp [hf]
            | cons f2 fs2 => simp [hf]
        · rw [if_neg h2, if_neg h2]

/-! ## C7 -/

theorem recencyBoost_mono (now : QE) (r1 r2 : Row)
    (h : r1.last_modified.toRat ≤ r2.last_modified.toRat) :
    (recencyBoost now r1).toRat ≤ (recencyBoost now r2).toRat := by
  simp only [recencyBoost]
  have hage : ((now.sub r2.last_modified).div (QE.ofInt 86400)).toRat
      ≤ ((now.sub r1.last_modified).div (QE.ofInt 86400)).toRat := by
    rw [QE.toRat_div, QE.toRat_div, QE.toRat_sub, QE.toRat_sub, QE.toRat_ofInt]
    have h86 : (0 : ℚ) < ((86400 : Int) : ℚ) := by norm_num
    exact (div_le_div_right h86).mpr (by linarith)
  split_ifs with a1 a2 a3 a4 a5 a6 a7 a8 a9 <;>
    simp only [QE.blt_iff, QE.toRat_ofInt] at * <;>
    push_cast at * <;>
    linarith

theorem exactBoost_le_of_ne (nq : String) (r : Row)
    (h : normalize_filename r.name ≠ nq) : (exactBoost nq r).toRat ≤ 20 := by
  unfold exactBoost
  rw [if_neg (fun e => h e.symm)]
  split_ifs <;> rw [QE.toRat_ofInt] <;> norm_num

theorem nameVsPathBoost_le (nq : String) (r : Row) : (nameVsPathBoost nq r).toRat ≤ 15 := by
  unfold nameVsPathBoost
  split_ifs <;> rw [QE.toRat_ofInt] <;> norm_num

theorem fuzzyBase_le_100 (nq : String) (r : Row) : (fuzzyBase nq r).toRat ≤ 100 := by
  unfold fuzzyBase
  exact QE.maxQ_le_toRat (token_set_score_le_100 _ _) (token_set_score_le_100 _ _)

theorem fuzzyBase_of_exact (nq : String) (r : Row)
    (htok : pySplitChars nq.data ≠ [])
    (hname : normalize_filename r.name = nq) : (fuzzyBase nq r).toRat = 100 := by
  unfold fuzzyBase
  rw [hname, token_set_score_self nq htok, QE.toRat_maxQ]
  rw [max_eq_left (by simpa [QE.toRat_ofInt] using token_set_score_le_100 nq (strLower r.path))]
  simp [QE.toRat_ofInt, QE.ofInt, QE.toRat]

/-- C7 amended: (1) as claimed, for two candidates identical in every
score-relevant field except the modification timestamp, the more recently
modified one never receives a lower composite score; (2) the unrestricted
ranking statement is false (see the counterexample: depth penalty, recency and
folder boosts can outweigh the exact-match boosts), but for two candidates for
the same query that are identical in every field except the name, an exact
normalized-name match always scores strictly higher than a pure partial
match. -/
theorem score_monotonicity_amended :
    (∀ (nq : String) (now : QE) (r1 r2 : Row),
      r1.name = r2.name → r1.path = r2.path → r1.extension = r2.extension →
      r1.last_modified.toRat ≤ r2.last_modified.toRat →
      (scoreRow nq now r1).toRat ≤ (scoreRow nq now r2).toRat)
    ∧ (∀ (nq : String) (now : QE) (r1 r2 : Row),
      pySplitChars nq.data ≠ [] →
      r1.path = r2.path → r1.extension = r2.extension →
      r1.last_modified = r2.last_modified →
      normalize_filename r1.name = nq →
      normalize_filename r2.name ≠ nq →
      (scoreRow nq now r2).toRat < (scoreRow nq now r1).toRat) := by
  constructor
  · intro nq now r1 r2 hname hpath hext hlm
    rw [scoreRow_decomp, scoreRow_decomp]
    have hfz : fuzzyBase nq r1 = fuzzyBase nq r2 := by unfold fuzzyBase; rw [hname, hpath]
    have hex : exactBoost nq r1 = exactBoost nq r2 := by unfold exactBoost; rw [hname]
    have hnv : nameVsPathBoost nq r1 = nameVsPathBoost nq r2 := by
      unfold nameVsPathBoost; rw [hname]
    have hxb : extensionIntentBoost nq r1 = extensionIntentBoost nq r2 := by
      unfold extensionIntentBoost; rw [hext]
    have hfb : folderContextBoost nq r1 = folderContextBoost nq r2 := by
      unfold folderContextBoost; rw [hpath]
    have hdp : depthPenalty r1 = depthPenalty r2 := by unfold depthPenalty; rw [hpath]
    rw [hfz, hex, hnv, hxb, hfb, hdp]
    have := recencyBoost_mono now r1 r2 hlm
    linarith
  · intro nq now r1 r2 htok hpath hext hlm hexact hpartial
    rw [scoreRow_decomp, scoreRow_decomp]
    have hxb : extensionIntentBoost nq r1 = extensionIntentBoost nq r2 := by
      unfold extensionIntentBoost; rw [hext]
    have hfb : folderContextBoost nq r1 = folderContextBoost nq r2 := by
      unfold folderContextBoost; rw [hpath]
    have hdp : depthPenalty r1 = depthPenalty r2 := by unfold depthPenalty; rw [hpath]
    have hrc : recencyBoost now r1 = recencyBoost now r2 := by unfold recencyBoost; rw [hlm]
    rw [hxb, hfb, hdp, hrc]
    have h1f : (fuzzyBase nq r1).toRat = 100 := fuzzyBase_of_exact nq r1 htok hexact
    have h1e : (exactBoost nq r1).toRat = 40 := by
      unfold exactBoost
      rw [if_pos hexact.symm]
      simp [QE.toRat_ofInt]
    have h1n : (nameVsPathBoost nq r1).toRat = 15 := by
      unfold nameVsPathBoost
      rw [hexact, if_pos (strContains_self nq)]
      simp [QE.toRat_ofInt]
    have h2f : (fuzzyBase nq r2).toRat ≤ 100 := fuzzyBase_le_100 nq r2
    have h2e : (exactBoost nq r2).toRat ≤ 20 := exactBoost_le_of_ne nq r2 hpartial
    have h2n : (nameVsPathBoost nq r2).toRat ≤ 15 := nameVsPathBoost_le nq r2
    rw [h1f, h1e, h1n]
    linarith

/-- C7 counterexample: the claim also asserts that an exact normalized-name
match always ranks above a pure partial match; here the exactly-matching
`report.txt` sits 21 directories deep and is 40 days old, while the partially
matching `reportx.txt` sits at the drive root and is fresh, so the partial
match is returned first. -/
theorem exact_match_ranked_below_partial :
    search_files db7 "report" (QE.ofInt 3456000) 5 = Except.ok [entryB7, entryA7]
      ∧ normalize_filename rowA7.name = normalize_filename "report"
      ∧ normalize_filename rowB7.name ≠ normalize_filename "report" :=
  ⟨rfl, rfl, by decide⟩

/-- Witness for the amended C7 theorem: both conjuncts applied at concrete
rows (same row aged versus fresh; exact versus partial name on otherwise
identical rows). -/
theorem score_monotonicity_amended_witness :
    (scoreRow "report" (QE.ofInt 3456000) rowA7).toRat
        ≤ (scoreRow "report" (QE.ofInt 3456000)
            ⟨1, "report.txt", pathA7, "file", ".txt", "d", QE.ofInt 60, 5⟩).toRat
      ∧ (scoreRow "report" (QE.ofInt 0)
            ⟨2, "reportx.txt", pathA7, "file", ".txt", "d", QE.ofInt 0, 5⟩).toRat
        < (scoreRow "report" (QE.ofInt 0) rowA7).toRat := by
  constructor
  · exact score_monotonicity_amended.1 "report" (QE.ofInt 3456000) rowA7
      ⟨1, "report.txt", pathA7, "file", ".txt", "d", QE.ofInt 60, 5⟩
      rfl rfl rfl (by norm_num [rowA7, QE.toRat, QE.ofInt])
  · exact score_monotonicity_amended.2 "report" (QE.ofInt 0)
      rowA7 ⟨2, "reportx.txt", pathA7, "file", ".txt", "d", QE.ofInt 0, 5⟩
      (by decide) rfl rfl rfl (by decide) (by decide)

/-! ## C10 -/

theorem memStr_iff (l : List String) (x : String) : memStr l x = true ↔ x ∈ l := by
  simp only [memStr, List.any_eq_true, decide_eq_true_eq]
  constructor
  · rintro ⟨y, hy, rfl⟩
    exact hy
  · intro h
    exact ⟨x, h, rfl⟩

theorem incremental_fold_current (snap : List (String × QE)) :
    ∀ (E : List WalkItem) (acc : DB × List String),
      (E.foldl (incremental_step snap) acc).2 = acc.2 ++ E.map (fun j => j.path) := by
  intro E
  induction E with
  | nil => intro acc; simp
  | cons it E ih =>
    intro acc
    rw [List.foldl_cons, ih]
    have hstep : (incremental_step snap acc it).2 = acc.2 ++ [it.path] := by
      unfold incremental_step
      dsimp only
      split_ifs
      · rfl
      all_goals
        cases assocFind snap it.path
        · rfl
        · dsimp only
          split_ifs <;> rfl
    rw [hstep, List.append_assoc]
    rfl

theorem incremental_fold_preserves (snap : List (String × QE)) (row : Row) :
    ∀ (E : List WalkItem) (acc : DB × List String),
      row ∈ acc.1.files →
      (∀ it ∈ E, it.path = row.path →
        it.isFile = true ∧ should_index_file it.name = false) →
      row ∈ (E.foldl (incremental_step snap) acc).1.files := by
  intro E
  induction E with
  | nil => intro acc h _; simpa using h
  | cons it E ih =>
    intro acc hacc hall
    rw [List.foldl_cons]
    refine ih (incremental_step snap acc it) ?_ (fun j hj hp => hall j (List.mem_cons_of_mem it hj) hp)
    unfold incremental_step
    dsimp only
    by_cases hskip : (it.isFile && !should_index_file it.name) = true
    · rw [if_pos hskip]
      exact hacc
    · rw [if_neg hskip]
      have hne : ¬ it.path = row.path := by
        intro hp
        obtain ⟨hf, hs⟩ := hall it (List.mem_cons_self it E) hp
        exact hskip (by rw [hf, hs]; rfl)
      cases hfind : assocFind snap it.path with
      | none =>
        dsimp only
        exact List.mem_append_left _ hacc
      | some m =>
        dsimp only
        split_ifs
        · exact List.mem_map.mpr ⟨row, hacc, by rw [if_neg (fun e => hne e.symm)]⟩
        · exact hacc

/-- C10: during an incremental pass every walked path is recorded as present
before the extension filter runs, so a stored file row whose path still exists
on disk is never deleted even when its extension now fails the filter rules;
the row is only skipped for insert and update and survives the pass with all
its stored fields unchanged. -/
theorem incremental_keeps_existing_unindexed_rows
    (w : List (String × FSEntry)) (root : String) (db : DB) (row : Row) (it : WalkItem)
    (hit : it ∈ walkOf w root) (hfile : it.isFile = true) (hpath : it.path = row.path)
    (hskip : should_index_file it.name = false)
    (hnd : ((walkOf w root).map (fun j => j.path)).Nodup)
    (hrow : row ∈ db.files) :
    row ∈ (incremental_update w root db).files := by
  have hall : ∀ j ∈ walkOf w root, j.path = row.path →
      j.isFile = true ∧ should_index_file j.name = false := by
    intro j hj hp
    have hj_eq : j = it := List.inj_on_of_nodup_map hnd hj hit (by rw [hp, hpath])
    rw [hj_eq]
    exact ⟨hfile, hskip⟩
  unfold incremental_update
  dsimp only
  set S := (walkOf w root).foldl (incremental_step (db_files_map db root)) (db, []) with hS
  have hpres : row ∈ S.1.files :=
    incremental_fold_preserves _ row _ _ hrow hall
  have hcur2 : S.2 = [] ++ (walkOf w root).map (fun j => j.path) :=
    incremental_fold_current _ _ _
  have hmem_cur : row.path ∈ S.2 := by
    rw [hcur2]
    exact List.mem_append_right _ (List.mem_map.mpr ⟨it, hit, hpath⟩)
  have hcurT : memStr S.2 row.path = true := (memStr_iff _ _).mpr hmem_cur
  refine List.mem_filter.mpr ⟨hpres, ?_⟩
  have hdel : memStr (((db_files_map db root).map Prod.fst).filter
      (fun p => !(memStr S.2 p))) row.path = false := by
    cases hM : memStr (((db_files_map db root).map Prod.fst).filter
        (fun p => !(memStr S.2 p))) row.path
    · rfl
    · exfalso
      have hmem := (memStr_iff _ _).mp hM
      have hfil := (List.mem_filter.mp hmem).2
      rw [hcurT] at hfil
      simp at hfil
  rw [hdel]
  rfl

/-- Witness for C10: a stored `.xyz` row whose file still exists on disk with
a changed timestamp survives an incremental pass unchanged. -/
theorem incremental_keeps_existing_unindexed_rows_witness :
    row10 ∈ (incremental_update world10 "c:\\r" ⟨[row10], [], 8⟩).files :=
  incremental_keeps_existing_unindexed_rows world10 "c:\\r" ⟨[row10], [], 8⟩ row10
    ⟨"a.xyz", "c:\\r\\a.xyz", "r", true, QE.ofInt 5, 1⟩
    (by decide) rfl rfl (by decide) (by decide) (by decide)

/-! ## C6: path-segment lemmas -/

theorem splitSeps_ne_nil (cs : List Char) : splitSepsChars cs ≠ [] := by
  cases cs with
  | nil => simp [splitSepsChars]
  | cons c cs =>
    unfold splitSepsChars
    split_ifs
    · simp
    · cases splitSepsChars cs <;> simp

theorem splitSeps_cons_sep (c : Char) (cs : List Char) (h : isSepChar c = true) :
    splitSepsChars (c :: cs) = [] :: splitSepsChars cs := by
  conv_lhs => rw [splitSepsChars]
  rw [if_pos h]

theorem splitSeps_cons_nosep (c : Char) (cs : List Char) (h : isSepChar c = false)
    (s : List Char) (rest : List (List Char)) (hs : splitSepsChars cs = s :: rest) :
    splitSepsChars (c :: cs) = (c :: s) :: rest := by
  conv_lhs => rw [splitSepsChars]
  rw [if_neg (by simp [h]), hs]

theorem splitSeps_noSep (cs : List Char) (h : ∀ c ∈ cs, isSepChar c = false) :
    splitSepsChars cs = [cs] := by
  induction cs with
  | nil => rfl
  | cons c cs ih =>
    have hih := ih (fun d hd => h d (List.mem_cons_of_mem c hd))
    exact splitSeps_cons_nosep c cs (h c (List.mem_cons_self c cs)) cs [] hih

theorem splitSeps_sep_split (a b : List Char) (c : Char) (hc : isSepChar c = true) :
    splitSepsChars (a ++ c :: b) = splitSepsChars a ++ splitSepsChars b := by
  induction a with
  | nil =>
    simp only [List.nil_append]
    rw [splitSeps_cons_sep c b hc]
    rfl
  | cons x a ih =>
    simp only [List.cons_append]
    by_cases hx : isSepChar x = true
    · rw [splitSeps_cons_sep x _ hx, splitSeps_cons_sep x _ hx, ih]
      rfl
    · have ha := splitSeps_ne_nil a
      cases hsa : splitSepsChars a with
      | nil => exact absurd hsa ha
      | cons s rest =>
        have hab : splitSepsChars (a ++ c :: b) = s :: (rest ++ splitSepsChars b) := by
          rw [ih, hsa]
          rfl
        rw [splitSeps_cons_nosep x _ (by simpa using hx) _ _ hab,
          splitSeps_cons_nosep x _ (by simpa using hx) _ _ hsa]
        rfl

theorem modLast_eq (L : List (List Char)) (b : List Char) (h : L ≠ []) :
    modLast L b = L.dropLast ++ [L.getLastD [] ++ b] := by
  induction L with
  | nil => exact absurd rfl h
  | cons x L ih =>
    cases L with
    | nil => rfl
    | cons y L2 =>
      unfold modLast
      rw [ih (by simp)]
      rfl

theorem splitSeps_modLast (a b : List Char) (hb : ∀ c ∈ b, isSepChar c = false) :
    splitSepsChars (a ++ b) = modLast (splitSepsChars a) b := by
  induction a with
  | nil =>
    simp only [List.nil_append]
    rw [splitSeps_noSep b hb]
    rfl
  | cons x a ih =>
    simp only [List.cons_append]
    have ha := splitSeps_ne_nil a
    cases hsa : splitSepsChars a with
    | nil => exact absurd hsa ha
    | cons s rest =>
      by_cases hx : isSepChar x = true
      · rw [splitSeps_cons_sep x _ hx, splitSeps_cons_sep x _ hx, ih, hsa]
        cases rest <;> rfl
      · have hab := ih
        rw [hsa] at hab
        cases rest with
        | nil =>
          have : modLast [s] b = [s ++ b] := rfl
          rw [this] at hab
          rw [splitSeps_cons_nosep x _ (by simpa using hx) _ _ hab,
            splitSeps_cons_nosep x _ (by simpa using hx) _ _ hsa]
          rfl
        | cons t rest2 =>
          have : modLast (s :: t :: rest2) b = s :: modLast (t :: rest2) b := rfl
          rw [this] at hab
          rw [splitSeps_cons_nosep x _ (by simpa using hx) _ _ hab,
            splitSeps_cons_nosep x _ (by simpa using hx) _ _ hsa]
          rfl

theorem cleanPathB_iff (p : String) :
    cleanPathB p = true ↔
      ∀ s ∈ splitSepsChars p.data, s ≠ [] → memStr EXCLUDED_DIRS ⟨s⟩ = false := by
  unfold cleanPathB pathSegs
  rw [List.all_eq_true]
  constructor
  · intro h s hs hne
    have hmem : (⟨s⟩ : String) ∈ ((splitSepsChars p.data).filter (fun t => !t.isEmpty)).map
        (fun t => (⟨t⟩ : String)) := by
      refine List.mem_map.mpr ⟨s, ?_, rfl⟩
      refine List.mem_filter.mpr ⟨hs, ?_⟩
      simp [List.isEmpty_iff, hne]
    have := h _ hmem
    simpa using this
  · intro h t ht
    obtain ⟨s, hsf, rfl⟩ := List.mem_map.mp ht
    have hmem := List.mem_filter.mp hsf
    have hne : s ≠ [] := by
      have := hmem.2
      simpa [List.isEmpty_iff] using this
    simpa using h s hmem.1 hne

theorem excluded_no_colon (s : List Char) (h : ':' ∈ s) :
    memStr EXCLUDED_DIRS ⟨s⟩ = false := by
  cases hM : memStr EXCLUDED_DIRS ⟨s⟩
  · rfl
  · exfalso
    have hmem := (memStr_iff _ _).mp hM
    have hdata : ∃ y ∈ EXCLUDED_DIRS, y.data = s := ⟨⟨s⟩, hmem, rfl⟩
    obtain ⟨y, hy, hys⟩ := hdata
    rw [← hys] at h
    fin_cases hy <;> revert h <;> decide

theorem goodName_no_sep (n : String) (h : goodName n = true) :
    ∀ c ∈ n.data, isSepChar c = false := by
  intro c hc
  unfold goodName at h
  rw [Bool.and_eq_true] at h
  have := (List.all_eq_true.mp h.2) c hc
  rw [Bool.and_eq_true] at this
  simpa using this.1

theorem goodName_ne_nil (n : String) (h : goodName n = true) : n.data ≠ [] := by
  unfold goodName at h
  rw [Bool.and_eq_true] at h
  simpa [List.isEmpty_iff] using h.1

theorem ntJoin_nil (p n : String) (hp : p.data = []) : ntJoin p n = n := by
  unfold ntJoin
  rw [hp]
  rfl

theorem ntJoin_endSep (p n : String) (c : Char) (h : p.data.getLast? = some c)
    (hc : (c = '\\' || c = '/' || c = ':') = true) : ntJoin p n = p ++ n := by
  unfold ntJoin
  rw [h]
  exact if_pos hc

theorem ntJoin_endOther (p n : String) (c : Char) (h : p.data.getLast? = some c)
    (hc : (c = '\\' || c = '/' || c = ':') = false) : ntJoin p n = p ++ "\\" ++ n := by
  unfold ntJoin
  rw [h]
  exact if_neg (by simp [hc])

/-- Joining a clean prefix with a legal, non-excluded object name yields a
clean path: the new segments are old segments of the prefix, the name itself,
or (after a drive colon) a merged segment that contains a colon and therefore
cannot be an excluded name. -/
theorem ntJoin_clean (p n : String) (hp : cleanPathB p = true) (hn : goodName n = true)
    (hx : memStr EXCLUDED_DIRS n = false) : cleanPathB (ntJoin p n) = true := by
  have hnsep := goodName_no_sep n hn
  cases hlast : p.data.getLast? with
  | none =>
    have hpnil : p.data = [] := List.getLast?_eq_none.mp hlast
    rw [ntJoin_nil p n hpnil, cleanPathB_iff]
    intro s hs _
    rw [splitSeps_noSep n.data hnsep] at hs
    simp only [List.mem_singleton] at hs
    subst hs
    exact hx
  | some c =>
    have hdecomp : p.data.dropLast ++ [c] = p.data :=
      List.dropLast_append_getLast? c (by rw [hlast]; rfl)
    by_cases hc : (c = '\\' || c = '/' || c = ':') = true
    · rw [ntJoin_endSep p n c hlast hc]
      by_cases hsep : isSepChar c = true
      · rw [cleanPathB_iff]
        intro s hs hne
        rw [String.data_append, ← hdecomp, List.append_assoc, List.singleton_append,
          splitSeps_sep_split _ _ c hsep, splitSeps_noSep n.data hnsep] at hs
        rcases List.mem_append.mp hs with h1 | h1
        · have hs_in_p : s ∈ splitSepsChars p.data := by
            rw [← hdecomp, splitSeps_sep_split _ _ c hsep]
            exact List.mem_append_left _ h1
          exact (cleanPathB_iff p).mp hp s hs_in_p hne
        · simp only [List.mem_singleton] at h1
          subst h1
          exact hx
      · have hcolon : c = ':' := by
          simp only [Bool.or_eq_true, decide_eq_true_eq] at hc
          rcases hc with (h1 | h1) | h1
          · exact absurd (by simp [isSepChar, h1]) hsep
          · exact absurd (by simp [isSepChar, h1]) hsep
          · exact h1
        rw [cleanPathB_iff]
        intro s hs hne
        have hbfree : ∀ d ∈ c :: n.data, isSepChar d = false := by
          intro d hd
          rcases List.mem_cons.mp hd with h1 | h1
          · subst h1
            simp [isSepChar, hcolon]
          · exact hnsep d h1
        rw [String.data_append, ← hdecomp, List.append_assoc, List.singleton_append,
          splitSeps_modLast _ _ hbfree, modLast_eq _ _ (splitSeps_ne_nil _)] at hs
        rcases List.mem_append.mp hs with h1 | h1
        · have hs_in_p : s ∈ splitSepsChars p.data := by
            rw [← hdecomp, splitSeps_modLast _ _
                (by
                  intro d hd
                  simp only [List.mem_singleton] at hd
                  subst hd
                  simp [isSepChar, hcolon]),
              modLast_eq _ _ (splitSeps_ne_nil _)]
            exact List.mem_append_left _ h1
          exact (cleanPathB_iff p).mp hp s hs_in_p hne
        · simp only [List.mem_singleton] at h1
          subst h1
          exact excluded_no_colon _ (by
            refine List.mem_append_right _ ?_
            rw [hcolon]
            exact List.mem_cons_self ':' n.data)
    · rw [ntJoin_endOther p n c hlast (by simpa using hc), cleanPathB_iff]
      intro s hs hne
      have hdata : (p ++ "\\" ++ n).data = p.data ++ '\\' :: n.data := by
        rw [String.data_append, String.data_append]
        simp
      rw [hdata, splitSeps_sep_split _ _ '\\' (by simp [isSepChar]),
        splitSeps_noSep n.data hnsep] at hs
      rcases List.mem_append.mp hs with h1 | h1
      · exact (cleanPathB_iff p).mp hp s h1 hne
      · simp only [List.mem_singleton] at h1
        subst h1
        exact hx

theorem bandE {a b : Bool} (h : (a && b) = true) : a = true ∧ b = true := by
  rw [Bool.and_eq_true] at h
  exact h

theorem excluded_not_indexed (n : String) (h : memStr EXCLUDED_DIRS n = true) :
    should_index_file n = false := by
  have hmem := (memStr_iff _ _).mp h
  fin_cases hmem <;> decide

theorem should_index_not_excluded (n : String) (h : should_index_file n = true) :
    memStr EXCLUDED_DIRS n = false := by
  cases hM : memStr EXCLUDED_DIRS n
  · rfl
  · rw [excluded_not_indexed n hM] at h
    exact absurd h (by simp)

theorem namesOk_goodName (e : FSEntry) (h : FSEntry.namesOk e = true) :
    goodName e.ename = true := by
  cases e with
  | file n m s => simpa [FSEntry.namesOk, FSEntry.ename] using h
  | dir n m s ch =>
    unfold FSEntry.namesOk at h
    exact (bandE h).1

theorem namesOkList_mem (l : List FSEntry) (h : FSEntry.namesOkList l = true) :
    ∀ c ∈ l, FSEntry.namesOk c = true := by
  induction l with
  | nil => intro c hc; simp at hc
  | cons x xs ih =>
    unfold FSEntry.namesOkList at h
    obtain ⟨h1, h2⟩ := bandE h
    intro c hc
    rcases List.mem_cons.mp hc with h3 | h3
    · rw [h3]; exact h1
    · exact ih h2 c h3

mutual
theorem walkEntry_clean (p : String) (e : FSEntry) :
    FSEntry.namesOk e = true → cleanPathB p = true →
    ∀ it ∈ walkEntry p e,
      (it.isFile = false → memStr EXCLUDED_DIRS it.name = false)
      ∧ (memStr EXCLUDED_DIRS it.name = false → cleanPathB it.path = true) := by
  intro hok hp it hit
  cases e with
  | file n m s => simp [walkEntry] at hit
  | dir n m s children =>
    unfold walkEntry at hit
    have hchok : FSEntry.namesOkList children = true := by
      unfold FSEntry.namesOk at hok
      exact (bandE hok).2
    simp only [List.mem_append] at hit
    rcases hit with (h1 | h1) | h1
    · obtain ⟨d, hd, rfl⟩ := List.mem_map.mp h1
      have hdf := List.mem_filter.mp hd
      obtain ⟨hdir, hnex⟩ := bandE hdf.2
      have hnex2 : memStr EXCLUDED_DIRS d.ename = false := by simpa using hnex
      have hgn : goodName d.ename = true :=
        namesOk_goodName d (namesOkList_mem children hchok d hdf.1)
      exact ⟨fun _ => hnex2, fun _ => ntJoin_clean p d.ename hp hgn hnex2⟩
    · obtain ⟨f, hf, rfl⟩ := List.mem_map.mp h1
      have hff := List.mem_filter.mp hf
      have hgn : goodName f.ename = true :=
        namesOk_goodName f (namesOkList_mem children hchok f hff.1)
      exact ⟨fun hcon => by simp at hcon,
        fun hnex => ntJoin_clean p f.ename hp hgn hnex⟩
    · exact walkChildren_clean p children hchok hp it h1

theorem walkChildren_clean (p : String) (l : List FSEntry) :
    FSEntry.namesOkList l = true → cleanPathB p = true →
    ∀ it ∈ walkChildren p l,
      (it.isFile = false → memStr EXCLUDED_DIRS it.name = false)
      ∧ (memStr EXCLUDED_DIRS it.name = false → cleanPathB it.path = true) := by
  intro hok hp it hit
  cases l with
  | nil => simp [walkChildren] at hit
  | cons c cs =>
    unfold FSEntry.namesOkList at hok
    obtain ⟨hc1, hc2⟩ := bandE hok
    unfold walkChildren at hit
    simp only [List.mem_append] at hit
    rcases hit with h1 | h1
    · by_cases hg : (c.isDir && !(memStr EXCLUDED_DIRS c.ename)) = true
      · rw [if_pos hg] at h1
        obtain ⟨_, hnex⟩ := bandE hg
        have hnex2 : memStr EXCLUDED_DIRS c.ename = false := by simpa using hnex
        have hq : cleanPathB (ntJoin p c.ename) = true :=
          ntJoin_clean p c.ename hp (namesOk_goodName c hc1) hnex2
        exact walkEntry_clean (ntJoin p c.ename) c hc1 hq it h1
      · rw [if_neg hg] at h1
        simp at h1
    · exact walkChildren_clean p cs hc2 hp it h1
end

theorem insert_or_ignore_clean (db : DB) (name path ty ext par : String) (m : QE) (sz : Int)
    (hdb : ∀ r ∈ db.files, cleanPathB r.path = true) (hclean : cleanPathB path = true) :
    ∀ r ∈ (insert_or_ignore db name path ty ext par m sz).files, cleanPathB r.path = true := by
  unfold insert_or_ignore
  split_ifs
  · exact hdb
  · intro r hr
    rcases List.mem_append.mp hr with h1 | h1
    · exact hdb r h1
    · simp only [List.mem_singleton] at h1
      rw [h1]
      exact hclean

theorem full_fold_clean (E : List WalkItem) :
    ∀ db : DB, (∀ r ∈ db.files, cleanPathB r.path = true) →
    (∀ it ∈ E,
      (it.isFile = false → memStr EXCLUDED_DIRS it.name = false)
      ∧ (memStr EXCLUDED_DIRS it.name = false → cleanPathB it.path = true)) →
    ∀ r ∈ (E.foldl full_rebuild_step db).files, cleanPathB r.path = true := by
  induction E with
  | nil => intro db hdb _; simpa using hdb
  | cons it E ih =>
    intro db hdb hall
    rw [List.foldl_cons]
    refine ih (full_rebuild_step db it) ?_ (fun j hj => hall j (List.mem_cons_of_mem it hj))
    obtain ⟨hfolder, hcln⟩ := hall it (List.mem_cons_self it E)
    unfold full_rebuild_step
    split_ifs with h1 h2
    · exact insert_or_ignore_clean db _ _ _ _ _ _ _ hdb
        (hcln (should_index_not_excluded it.name h2))
    · exact hdb
    · exact insert_or_ignore_clean db _ _ _ _ _ _ _ hdb
        (hcln (hfolder (by simpa using h1)))

theorem incr_fold_clean (snap : List (String × QE)) (E : List WalkItem) :
    ∀ acc : DB × List String, (∀ r ∈ acc.1.files, cleanPathB r.path = true) →
    (∀ it ∈ E,
      (it.isFile = false → memStr EXCLUDED_DIRS it.name = false)
      ∧ (memStr EXCLUDED_DIRS it.name = false → cleanPathB it.path = true)) →
    ∀ r ∈ (E.foldl (incremental_step snap) acc).1.files, cleanPathB r.path = true := by
  induction E with
  | nil => intro acc hdb _; simpa using hdb
  | cons it E ih =>
    intro acc hdb hall
    rw [List.foldl_cons]
    refine ih (incremental_step snap acc it) ?_ (fun j hj => hall j (List.mem_cons_of_mem it hj))
    obtain ⟨hfolder, hcln⟩ := hall it (List.mem_cons_self it E)
    unfold incremental_step
    dsimp only
    by_cases hskip : (it.isFile && !should_index_file it.name) = true
    · rw [if_pos hskip]
      exact hdb
    · rw [if_neg hskip]
      have hclean : cleanPathB it.path = true := by
        by_cases hf : it.isFile = true
        · have hsi : should_index_file it.name = true := by
            cases hs : should_index_file it.name
            · exact absurd (show (it.isFile && !should_index_file it.name) = true by
                rw [hf, hs]; rfl) hskip
            · rfl
          exact hcln (should_index_not_excluded it.name hsi)
        · exact hcln (hfolder (by simpa using hf))
      cases hfind : assocFind snap it.path with
      | none =>
        dsimp only
        intro r hr
        rcases List.mem_append.mp hr with h1 | h1
        · exact hdb r h1
        · simp only [List.mem_singleton] at h1
          rw [h1]
          exact hclean
      | some mv =>
        dsimp only
        split_ifs
        · intro r hr
          obtain ⟨r0, hr0, rfl⟩ := List.mem_map.mp hr
          by_cases hpr : r0.path = it.path
          · rw [if_pos hpr]
            exact hpr ▸ hclean
          · rw [if_neg hpr]
            exact hdb r0 hr0
        · exact hdb

theorem walkOf_clean (w : List (String × FSEntry)) (root : String)
    (hw : worldNamesOk w = true) (hr : cleanPathB root = true) :
    ∀ it ∈ walkOf w root,
      (it.isFile = false → memStr EXCLUDED_DIRS it.name = false)
      ∧ (memStr EXCLUDED_DIRS it.name = false → cleanPathB it.path = true) := by
  intro it hit
  unfold walkOf at hit
  revert hit
  cases hfm : (w.find? (fun kv => decide (kv.1 = root))).map Prod.snd with
  | none => intro hit; simp at hit
  | some e =>
    intro hit
    obtain ⟨kv, hkv, hsnd⟩ := Option.map_eq_some'.mp hfm
    have hmem : kv ∈ w := List.mem_of_find?_eq_some hkv
    have hok : FSEntry.namesOk kv.2 = true := by
      simp only [worldNamesOk, List.all_eq_true] at hw
      exact hw kv hmem
    rw [← hsnd] at hit
    exact walkEntry_clean root kv.2 hok hr it hit

theorem full_rebuild_clean (w : List (String × FSEntry)) (root : String) (db : DB)
    (hw : worldNamesOk w = true) (hr : cleanPathB root = true)
    (hdb : ∀ r ∈ db.files, cleanPathB r.path = true) :
    ∀ r ∈ (full_rebuild w root db).files, cleanPathB r.path = true :=
  full_fold_clean (walkOf w root) db hdb (walkOf_clean w root hw hr)

theorem incremental_update_clean (w : List (String × FSEntry)) (root : String) (db : DB)
    (hw : worldNamesOk w = true) (hr : cleanPathB root = true)
    (hdb : ∀ r ∈ db.files, cleanPathB r.path = true) :
    ∀ r ∈ (incremental_update w root db).files, cleanPathB r.path = true := by
  unfold incremental_update
  dsimp only
  intro r hr2
  have h1 := List.mem_filter.mp hr2
  exact incr_fold_clean (db_files_map db root) (walkOf w root) (db, []) hdb
    (walkOf_clean w root hw hr) r h1.1

theorem ensure_single_root_clean (w : List (String × FSEntry)) (root : String) (now : QE)
    (db : DB) (hw : worldNamesOk w = true) (hr : cleanPathB root = true)
    (hdb : ∀ r ∈ db.files, cleanPathB r.path = true) :
    ∀ r ∈ (ensure_single_root w root now db).files, cleanPathB r.path = true := by
  unfold ensure_single_root save_meta
  dsimp only
  cases hm : assocFind db.meta ("root::" ++ root) with
  | none =>
    dsimp only
    exact full_rebuild_clean w root db hw hr hdb
  | some v =>
    dsimp only
    exact incremental_update_clean w root db hw hr hdb

theorem ensure_index_clean (w : List (String × FSEntry)) (roots : List String) (now : QE) :
    ∀ db : DB, worldNamesOk w = true → (∀ ro ∈ roots, cleanPathB ro = true) →
    (∀ r ∈ db.files, cleanPathB r.path = true) →
    ∀ r ∈ (ensure_index w roots now db).files, cleanPathB r.path = true := by
  induction roots with
  | nil => intro db _ _ hdb; simpa [ensure_index] using hdb
  | cons ro rs ih =>
    intro db hw hroots hdb
    have h1 : ensure_index w (ro :: rs) now db
        = ensure_index w rs now (ensure_single_root w ro now db) := by
      unfold ensure_index
      rw [List.foldl_cons]
    rw [h1]
    exact ih (ensure_single_root w ro now db) hw
      (fun x hx => hroots x (List.mem_cons_of_mem ro hx))
      (ensure_single_root_clean w ro now db hw (hroots ro (List.mem_cons_self ro rs)) hdb)

theorem run_passes_clean (passes : List IndexPass) :
    ∀ db : DB,
    (∀ p ∈ passes, worldNamesOk p.world = true ∧ ∀ ro ∈ p.roots, cleanPathB ro = true) →
    (∀ r ∈ db.files, cleanPathB r.path = true) →
    ∀ r ∈ (run_passes passes db).files, cleanPathB r.path = true := by
  induction passes with
  | nil => intro db _ hdb; simpa [run_passes] using hdb
  | cons p ps ih =>
    intro db hp hdb
    have h1 : run_passes (p :: ps) db
        = run_passes ps (ensure_index p.world p.roots p.now db) := by
      unfold run_passes
      rw [List.foldl_cons]
    rw [h1]
    have hph := hp p (List.mem_cons_self p ps)
    exact ih (ensure_index p.world p.roots p.now db)
      (fun x hx => hp x (List.mem_cons_of_mem p hx))
      (ensure_index_clean p.world p.roots p.now db hph.1 hph.2 hdb)

theorem mem_insertScoredDesc (a x : QE × Row) (l : List (QE × Row))
    (h : a ∈ insertScoredDesc x l) : a = x ∨ a ∈ l := by
  induction l with
  | nil => simpa [insertScoredDesc] using h
  | cons z zs ih =>
    unfold insertScoredDesc at h
    by_cases hc : (z.1.ble x.1) = true
    · rw [if_pos hc] at h
      rcases List.mem_cons.mp h with h1 | h1
      · exact Or.inl h1
      · exact Or.inr h1
    · rw [if_neg hc] at h
      rcases List.mem_cons.mp h with h1 | h1
      · exact Or.inr (h1 ▸ List.mem_cons_self z zs)
      · rcases ih h1 with h2 | h2
        · exact Or.inl h2
        · exact Or.inr (List.mem_cons_of_mem z h2)

theorem mem_sortScoredDesc (a : QE × Row) (l : List (QE × Row))
    (h : a ∈ sortScoredDesc l) : a ∈ l := by
  induction l with
  | nil => simpa [sortScoredDesc] using h
  | cons x xs ih =>
    have h2 : sortScoredDesc (x :: xs) = insertScoredDesc x (sortScoredDesc xs) := rfl
    rw [h2] at h
    rcases mem_insertScoredDesc a x _ h with h1 | h1
    · exact h1 ▸ List.mem_cons_self x xs
    · exact List.mem_cons_of_mem x (ih h1)

theorem search_entries_from_rows (db : DB) (q : String) (now : QE) (lim : Nat)
    (l : List FileEntry) (h : search_files db q now lim = Except.ok l) :
    ∀ e ∈ l, ∃ r ∈ db.files, e = rowToEntry r := by
  unfold search_files at h
  dsimp only at h
  by_cases ht : (pySplit (normalize_filename q)).isEmpty = true
  · rw [if_pos ht] at h
    exact absurd h (by simp)
  · rw [if_neg ht] at h
    have hl := Except.ok.inj h
    intro e he
    rw [← hl] at he
    obtain ⟨sr, hsr, rfl⟩ := List.mem_map.mp he
    have hsr2 := List.mem_of_mem_take hsr
    have hsr3 := mem_sortScoredDesc sr _ hsr2
    obtain ⟨r, hrmem, hfr⟩ := List.mem_filterMap.mp hsr3
    by_cases hms : (MIN_SCORE.ble (scoreRow (normalize_filename q) now r)) = true
    · rw [if_pos hms] at hfr
      have hinj := Option.some.inj hfr
      have hsnd : sr.2 = r := by rw [← hinj]
      rw [hsnd]
      have hmem2 : r ∈ db.files :=
        (List.mem_filter.mp (List.mem_of_mem_take hrmem)).1
      exact ⟨r, hmem2, rfl⟩
    · rw [if_neg hms] at hfr
      exact absurd hfr (by simp)

/-- C6: starting from an empty store, after any sequence of indexing passes
whose worlds use only legal filesystem names and whose roots do not lie inside
an excluded directory, no catalog row's path contains an excluded-directory
name as a path segment, and consequently no search result's path does
either. -/
theorem exclusion_invariant_holds (passes : List IndexPass)
    (hp : ∀ p ∈ passes, worldNamesOk p.world = true ∧ ∀ ro ∈ p.roots, cleanPathB ro = true) :
    (∀ r ∈ (run_passes passes emptyDB).files, cleanPathB r.path = true)
    ∧ ∀ (q : String) (now : QE) (lim : Nat) (l : List FileEntry),
        search_files (run_passes passes emptyDB) q now lim = Except.ok l →
        ∀ e ∈ l, cleanPathB e.path = true := by
  have hrows := run_passes_clean passes emptyDB hp (by intro r hr; simp [emptyDB] at hr)
  refine ⟨hrows, ?_⟩
  intro q now lim l h e he
  obtain ⟨r, hrm, rfl⟩ := search_entries_from_rows _ _ _ _ _ h e he
  exact hrows r hrm

theorem exclusion_invariant_holds_witness :
    ((run_passes [⟨world6, ["c:\\r"], QE.ofInt 9⟩] emptyDB).files.all
      fun r => cleanPathB r.path) = true := by
  have h := exclusion_invariant_holds [⟨world6, ["c:\\r"], QE.ofInt 9⟩] (by decide)
  exact List.all_eq_true.mpr (fun r hr => h.1 r hr)

theorem ntJoin_startsWith (a b : String) : strStartsWith (ntJoin a b) a = true := by
  unfold ntJoin strStartsWith
  cases hl : a.data.getLast? with
  | none =>
    have ha : a.data = [] := List.getLast?_eq_none.mp hl
    dsimp only
    rw [ha]
    exact List.isPrefixOf_iff_prefix.mpr (List.nil_prefix)
  | some c =>
    dsimp only
    split_ifs
    · rw [String.data_append]
      exact List.isPrefixOf_iff_prefix.mpr (List.prefix_append _ _)
    · rw [String.data_append, String.data_append, List.append_assoc]
      exact List.isPrefixOf_iff_prefix.mpr (List.prefix_append _ _)

theorem strStartsWith_trans (a b c : String)
    (h1 : strStartsWith b a = true) (h2 : strStartsWith c b = true) :
    strStartsWith c a = true := by
  unfold strStartsWith at *
  exact List.isPrefixOf_iff_prefix.mpr
    ((List.isPrefixOf_iff_prefix.mp h1).trans (List.isPrefixOf_iff_prefix.mp h2))

mutual
theorem walkEntry_startsWith (p : String) (e : FSEntry) :
    ∀ it ∈ walkEntry p e, strStartsWith it.path p = true := by
  intro it hit
  cases e with
  | file n m s => simp [walkEntry] at hit
  | dir n m s children =>
    unfold walkEntry at hit
    simp only [List.mem_append] at hit
    rcases hit with (h1 | h1) | h1
    · obtain ⟨d, _, rfl⟩ := List.mem_map.mp h1
      exact ntJoin_startsWith p d.ename
    · obtain ⟨f, _, rfl⟩ := List.mem_map.mp h1
      exact ntJoin_startsWith p f.ename
    · exact walkChildren_startsWith p children it h1

theorem walkChildren_startsWith (p : String) (l : List FSEntry) :
    ∀ it ∈ walkChildren p l, strStartsWith it.path p = true := by
  intro it hit
  cases l with
  | nil => simp [walkChildren] at hit
  | cons c cs =>
    unfold walkChildren at hit
    simp only [List.mem_append] at hit
    rcases hit with h1 | h1
    · by_cases hg : (c.isDir && !(memStr EXCLUDED_DIRS c.ename)) = true
      · rw [if_pos hg] at h1
        exact strStartsWith_trans p (ntJoin p c.ename) it.path
          (ntJoin_startsWith p c.ename)
          (walkEntry_startsWith (ntJoin p c.ename) c it h1)
      · rw [if_neg hg] at h1
        simp at h1
    · exact walkChildren_startsWith p cs it h1
end

theorem walkOf_startsWith (w : List (String × FSEntry)) (root : String) :
    ∀ it ∈ walkOf w root, strStartsWith it.path root = true := by
  intro it hit
  unfold walkOf at hit
  revert hit
  cases hfm : (w.find? (fun kv => decide (kv.1 = root))).map Prod.snd with
  | none => intro hit; simp at hit
  | some e => exact walkEntry_startsWith root e it

theorem rootKey_ne_lit (root : String) : ("root::" ++ root = "last_index_time") → False := by
  intro h
  have h3 : "root::".data ++ root.data = "last_index_time".data := congrArg String.data h
  rw [show "root::".data = 'r' :: "oot::".data from by decide] at h3
  rw [show "last_index_time".data = 'l' :: "ast_index_time".data from by decide] at h3
  rw [List.cons_append] at h3
  injection h3 with h4 h5
  exact absurd h4 (by decide)

theorem insert_or_ignore_meta (db : DB) (name path ty ext par : String) (m : QE) (sz : Int) :
    (insert_or_ignore db name path ty ext par m sz).meta = db.meta := by
  unfold insert_or_ignore
  split_ifs <;> rfl

theorem full_fold_meta (E : List WalkItem) :
    ∀ db : DB, (E.foldl full_rebuild_step db).meta = db.meta := by
  induction E with
  | nil => intro db; simp
  | cons it E ih =>
    intro db
    rw [List.foldl_cons, ih]
    unfold full_rebuild_step
    split_ifs
    · exact insert_or_ignore_meta db _ _ _ _ _ _ _
    · rfl
    · exact insert_or_ignore_meta db _ _ _ _ _ _ _

theorem insert_fresh_files (db : DB) (name path ty ext par : String) (m : QE) (sz : Int)
    (h : ∀ r ∈ db.files, r.path ≠ path) :
    (insert_or_ignore db name path ty ext par m sz).files
      = db.files ++ [⟨db.nextId, name, path, ty, ext, par, m, sz⟩] := by
  unfold insert_or_ignore
  rw [if_neg]
  intro hcon
  obtain ⟨r, hr, hrp⟩ := List.any_eq_true.mp hcon
  exact h r hr (of_decide_eq_true hrp)

theorem full_fold_pm (E : List WalkItem) :
    ∀ db : DB, ((E.map WalkItem.path).Nodup) →
    (∀ it ∈ E, ∀ r ∈ db.files, r.path ≠ it.path) →
    (E.foldl full_rebuild_step db).files.map (fun r => (r.path, r.last_modified))
      = db.files.map (fun r => (r.path, r.last_modified))
        ++ (E.filter fun it => !it.isFile || should_index_file it.name).map
            (fun it => (it.path, it.mtime)) := by
  induction E with
  | nil => intro db _ _; simp
  | cons it E ih =>
    intro db hnd hfresh
    rw [List.map_cons] at hnd
    obtain ⟨hnotin, hnd2⟩ := List.nodup_cons.mp hnd
    have hfr1 : ∀ r ∈ db.files, r.path ≠ it.path :=
      fun r hr => hfresh it (List.mem_cons_self it E) r hr
    rw [List.foldl_cons]
    by_cases hf : it.isFile = true
    · by_cases hs : should_index_file it.name = true
      · have hstep : full_rebuild_step db it
            = insert_or_ignore db it.name it.path "file"
                (strLower (os_path_splitext_ext it.name)) it.parent it.mtime it.size := by
          unfold full_rebuild_step
          rw [if_pos hf, if_pos hs]
        have hins := insert_fresh_files db it.name it.path "file"
          (strLower (os_path_splitext_ext it.name)) it.parent it.mtime it.size hfr1
        have hfresh2 : ∀ j ∈ E, ∀ r ∈ (full_rebuild_step db it).files, r.path ≠ j.path := by
          intro j hj r hr
          rw [hstep, hins] at hr
          rcases List.mem_append.mp hr with h1 | h1
          · exact hfresh j (List.mem_cons_of_mem it hj) r h1
          · simp only [List.mem_singleton] at h1
            rw [h1]
            intro hcon
            have hcon2 : it.path = j.path := hcon
            exact hnotin (by rw [hcon2]; exact List.mem_map_of_mem WalkItem.path hj)
        rw [ih (full_rebuild_step db it) hnd2 hfresh2, hstep, hins]
        rw [List.filter_cons_of_pos (by rw [hf, hs]; rfl)]
        simp [List.append_assoc]
      · have hstep : full_rebuild_step db it = db := by
          unfold full_rebuild_step
          rw [if_pos hf, if_neg hs]
        have hfresh2 : ∀ j ∈ E, ∀ r ∈ (full_rebuild_step db it).files, r.path ≠ j.path := by
          intro j hj r hr
          rw [hstep] at hr
          exact hfresh j (List.mem_cons_of_mem it hj) r hr
        rw [ih (full_rebuild_step db it) hnd2 hfresh2, hstep]
        rw [List.filter_cons_of_neg
          (by simp only [hf, Bool.not_true, Bool.false_or]; exact hs)]
    · have hstep : full_rebuild_step db it
          = insert_or_ignore db it.name it.path "folder" "" it.parent it.mtime it.size := by
        unfold full_rebuild_step
        rw [if_neg hf]
      have hins := insert_fresh_files db it.name it.path "folder" ""
        it.parent it.mtime it.size hfr1
      have hfresh2 : ∀ j ∈ E, ∀ r ∈ (full_rebuild_step db it).files, r.path ≠ j.path := by
        intro j hj r hr
        rw [hstep, hins] at hr
        rcases List.mem_append.mp hr with h1 | h1
        · exact hfresh j (List.mem_cons_of_mem it hj) r h1
        · simp only [List.mem_singleton] at h1
          rw [h1]
          intro hcon
          have hcon2 : it.path = j.path := hcon
          exact hnotin (by rw [hcon2]; exact List.mem_map_of_mem WalkItem.path hj)
      rw [ih (full_rebuild_step db it) hnd2 hfresh2, hstep, hins]
      have hf2 : it.isFile = false := Bool.eq_false_iff.mpr hf
      rw [List.filter_cons_of_pos (by simp only [hf2, Bool.not_false, Bool.true_or])]
      simp [List.append_assoc]

theorem assocSet_fresh {α : Type} (m : List (String × α)) (k : String) (v : α)
    (h : ∀ kv ∈ m, kv.1 ≠ k) : assocSet m k v = m ++ [(k, v)] := by
  unfold assocSet
  rw [if_neg]
  intro hcon
  obtain ⟨kv, hkv, hp⟩ := List.any_eq_true.mp hcon
  exact h kv hkv (of_decide_eq_true hp)

theorem db_files_map_fold (root : String) (files : List Row) :
    ∀ m : List (String × QE),
    (∀ r ∈ files, strStartsWith r.path root = true) →
    ((files.map Row.path).Nodup) →
    (∀ r ∈ files, ∀ kv ∈ m, kv.1 ≠ r.path) →
    files.foldl
      (fun m r => if strStartsWith r.path root then assocSet m r.path r.last_modified else m) m
      = m ++ files.map (fun r => (r.path, r.last_modified)) := by
  induction files with
  | nil => intro m _ _ _; simp
  | cons r fs ih =>
    intro m hsw hnd hfresh
    rw [List.map_cons] at hnd
    obtain ⟨hnotin, hnd2⟩ := List.nodup_cons.mp hnd
    rw [List.foldl_cons, if_pos (hsw r (List.mem_cons_self r fs))]
    rw [assocSet_fresh m r.path r.last_modified
      (fun kv hkv => hfresh r (List.mem_cons_self r fs) kv hkv)]
    have hfresh2 : ∀ r2 ∈ fs, ∀ kv ∈ m ++ [(r.path, r.last_modified)], kv.1 ≠ r2.path := by
      intro r2 hr2 kv hkv
      rcases List.mem_append.mp hkv with h1 | h1
      · exact hfresh r2 (List.mem_cons_of_mem r hr2) kv h1
      · simp only [List.mem_singleton] at h1
        rw [h1]
        intro hcon
        have hcon2 : r.path = r2.path := hcon
        exact hnotin (by rw [hcon2]; exact List.mem_map_of_mem Row.path hr2)
    rw [ih (m ++ [(r.path, r.last_modified)])
      (fun r2 hr2 => hsw r2 (List.mem_cons_of_mem r hr2)) hnd2 hfresh2]
    simp [List.append_assoc]

theorem assocFind_map_mtime (E : List WalkItem) (it : WalkItem)
    (hnd : (E.map WalkItem.path).Nodup) (hit : it ∈ E) :
    assocFind (E.map fun j => (j.path, j.mtime)) it.path = some it.mtime := by
  induction E with
  | nil => cases hit
  | cons x xs ih =>
    rw [List.map_cons] at hnd
    obtain ⟨hnotin, hnd2⟩ := List.nodup_cons.mp hnd
    rcases List.mem_cons.mp hit with h1 | h1
    · rw [h1]
      unfold assocFind
      rw [List.map_cons, List.find?_cons_of_pos _ (by simp)]
      rfl
    · have hne : x.path ≠ it.path := by
        intro hcon
        exact hnotin (by rw [hcon]; exact List.mem_map_of_mem WalkItem.path h1)
      unfold assocFind
      rw [List.map_cons, List.find?_cons_of_neg _ (by simp [hne])]
      exact ih hnd2 h1

theorem QE.beq_self (q : QE) : q.beq q = true := by
  unfold QE.beq
  exact decide_eq_true rfl

theorem incr_fold_noop (snap : List (String × QE)) (E : List WalkItem) :
    ∀ (d : DB) (cur : List String),
    (∀ it ∈ E, (!it.isFile || should_index_file it.name) = true →
      assocFind snap it.path = some it.mtime) →
    (E.foldl (incremental_step snap) (d, cur)).1 = d := by
  induction E with
  | nil => intro d cur _; rfl
  | cons it E ih =>
    intro d cur hall
    rw [List.foldl_cons]
    have htail : ∀ j ∈ E, (!j.isFile || should_index_file j.name) = true →
        assocFind snap j.path = some j.mtime :=
      fun j hj => hall j (List.mem_cons_of_mem it hj)
    by_cases hskip : (it.isFile && !should_index_file it.name) = true
    · have hstep : incremental_step snap (d, cur) it = (d, cur ++ [it.path]) := by
        unfold incremental_step
        dsimp only
        rw [if_pos hskip]
      rw [hstep]
      exact ih d (cur ++ [it.path]) htail
    · have hkeep : (!it.isFile || should_index_file it.name) = true := by
        cases hf : it.isFile
        · rfl
        · cases hs : should_index_file it.name
          · exact absurd (by rw [hf, hs]; rfl) hskip
          · simp
      have hm := hall it (List.mem_cons_self it E) hkeep
      have hstep : incremental_step snap (d, cur) it = (d, cur ++ [it.path]) := by
        unfold incremental_step
        dsimp only
        rw [if_neg hskip, hm]
        dsimp only
        rw [if_neg (by rw [QE.beq_self]; simp)]
      rw [hstep]
      exact ih d (cur ++ [it.path]) htail

theorem ensure_index_first (w : List (String × FSEntry)) (root : String) (n : QE) :
    ensure_index w [root] n emptyDB
      = save_meta (save_meta (full_rebuild w root emptyDB) ("root::" ++ root) "indexed")
          "last_index_time" (timeString n) := rfl

theorem ensure_index_first_meta_lookup (w : List (String × FSEntry)) (root : String) (n : QE) :
    assocFind (ensure_index w [root] n emptyDB).meta ("root::" ++ root) = some "indexed" := by
  rw [ensure_index_first]
  show assocFind
      (assocSet (assocSet (full_rebuild w root emptyDB).meta ("root::" ++ root) "indexed")
        "last_index_time" (timeString n)) ("root::" ++ root) = some "indexed"
  have hFm : (full_rebuild w root emptyDB).meta = [] := by
    unfold full_rebuild
    exact full_fold_meta (walkOf w root) emptyDB
  rw [hFm]
  rw [show assocSet ([] : List (String × String)) ("root::" ++ root) "indexed"
      = [(("root::" ++ root), "indexed")] from rfl]
  rw [assocSet_fresh _ _ _ (by
    intro kv hkv
    simp only [List.mem_singleton] at hkv
    rw [hkv]
    intro hcon
    have hcon2 : ("root::" ++ root) = "last_index_time" := hcon
    exact rootKey_ne_lit root hcon2)]
  rw [List.singleton_append]
  unfold assocFind
  rw [List.find?_cons_of_pos _ (by simp)]
  rfl

theorem ensure_index_second (w : List (String × FSEntry)) (root : String) (n : QE)
    (db : DB) (v : String) (hm : assocFind db.meta ("root::" ++ root) = some v) :
    ensure_index w [root] n db
      = save_meta (incremental_update w root db) "last_index_time" (timeString n) := by
  have h1 : ensure_index w [root] n db = ensure_single_root w root n db := by
    unfold ensure_index
    rw [List.foldl_cons, List.foldl_nil]
  rw [h1]
  unfold ensure_single_root
  dsimp only
  rw [hm]

/-- C5: `ensure_index` is not idempotent in general.  With the two roots
`c:\ab` and `c:\abc` (the first a string prefix of the second), the second
run's incremental pass for `c:\ab` loads `c:\abc\y.txt` into its snapshot
through the `LIKE 'c:\ab%'` prefix query, does not encounter that path while
walking `c:\ab`, deletes the row, and the later pass for `c:\abc` re-inserts
it under a fresh id, so the catalog after the second run differs from the
catalog after the first. -/
theorem ensure_index_not_idempotent :
    (ensure_index worldPfx rootsPfx (QE.ofInt 2)
        (ensure_index worldPfx rootsPfx (QE.ofInt 1) emptyDB)).files
      ≠ (ensure_index worldPfx rootsPfx (QE.ofInt 1) emptyDB).files := by
  decide

/-- C5 (amended): for a single root, starting from an empty store, when the
walk of that root visits no path twice, running `ensure_index` twice with no
filesystem change between the runs leaves the files table identical after the
second run: no row is added, no row is deleted, and no stored field
changes. -/
theorem ensure_index_idempotent_single_root (w : List (String × FSEntry)) (root : String)
    (n1 n2 : QE)
    (hnd : ((walkOf w root).map WalkItem.path).Nodup) :
    (ensure_index w [root] n2 (ensure_index w [root] n1 emptyDB)).files
      = (ensure_index w [root] n1 emptyDB).files := by
  have hlook : assocFind (ensure_index w [root] n1 emptyDB).meta ("root::" ++ root)
      = some "indexed" := ensure_index_first_meta_lookup w root n1
  rw [ensure_index_second w root n2 (ensure_index w [root] n1 emptyDB) "indexed" hlook]
  show (incremental_update w root (ensure_index w [root] n1 emptyDB)).files
      = (ensure_index w [root] n1 emptyDB).files
  have hdbfiles : (ensure_index w [root] n1 emptyDB).files
      = (full_rebuild w root emptyDB).files := by
    rw [ensure_index_first]
    rfl
  have hpm : (full_rebuild w root emptyDB).files.map (fun r => (r.path, r.last_modified))
      = ((walkOf w root).filter fun it => !it.isFile || should_index_file it.name).map
          (fun it => (it.path, it.mtime)) := by
    have h0 := full_fold_pm (walkOf w root) emptyDB hnd
      (by intro it _ r hr; simp [emptyDB] at hr)
    unfold full_rebuild
    rw [h0]
    rw [show (emptyDB.files : List Row) = [] from rfl, List.map_nil, List.nil_append]
  have hndK : ((((walkOf w root).filter
        fun it => !it.isFile || should_index_file it.name)).map WalkItem.path).Nodup :=
    hnd.sublist (List.Sublist.map WalkItem.path (List.filter_sublist (walkOf w root)))
  have hndF : ((full_rebuild w root emptyDB).files.map Row.path).Nodup := by
    have h5 := congrArg (List.map Prod.fst) hpm
    rw [List.map_map, List.map_map] at h5
    have h6 : (full_rebuild w root emptyDB).files.map Row.path
        = ((walkOf w root).filter
            fun it => !it.isFile || should_index_file it.name).map WalkItem.path := h5
    rw [h6]
    exact hndK
  have hswF : ∀ r ∈ (full_rebuild w root emptyDB).files,
      strStartsWith r.path root = true := by
    intro r hr
    have h7 : (r.path, r.last_modified) ∈ ((walkOf w root).filter
        fun it => !it.isFile || should_index_file it.name).map
          (fun it => (it.path, it.mtime)) := by
      rw [← hpm]
      exact List.mem_map_of_mem _ hr
    obtain ⟨it, hitk, hpair⟩ := List.mem_map.mp h7
    have hpp : it.path = r.path := congrArg Prod.fst hpair
    rw [← hpp]
    exact walkOf_startsWith w root it (List.mem_of_mem_filter hitk)
  have hdbm : db_files_map (ensure_index w [root] n1 emptyDB) root
      = ((walkOf w root).filter fun it => !it.isFile || should_index_file it.name).map
          (fun it => (it.path, it.mtime)) := by
    unfold db_files_map
    rw [hdbfiles]
    rw [db_files_map_fold root (full_rebuild w root emptyDB).files [] hswF hndF
      (by intro r _ kv hkv; simp at hkv)]
    rw [List.nil_append, hpm]
  have hA : ∀ it ∈ walkOf w root, (!it.isFile || should_index_file it.name) = true →
      assocFind (db_files_map (ensure_index w [root] n1 emptyDB) root) it.path
        = some it.mtime := by
    intro it hit hkeep
    rw [hdbm]
    exact assocFind_map_mtime _ it hndK (List.mem_filter.mpr ⟨hit, hkeep⟩)
  have hdel2 : ((db_files_map (ensure_index w [root] n1 emptyDB) root).map Prod.fst).filter
      (fun p => !(memStr ((walkOf w root).map fun j => j.path) p)) = [] := by
    rw [hdbm, List.map_map]
    rw [List.filter_eq_nil_iff]
    intro p hp
    obtain ⟨it, hitk, rfl⟩ := List.mem_map.mp hp
    intro hcon
    have hcon2 : (!(memStr ((walkOf w root).map fun j => j.path) it.path)) = true := hcon
    have hmemb : memStr ((walkOf w root).map fun j => j.path) it.path = true :=
      (memStr_iff _ _).mpr (List.mem_map_of_mem _ (List.mem_of_mem_filter hitk))
    rw [hmemb] at hcon2
    simp at hcon2
  unfold incremental_update
  dsimp only
  rw [incremental_fold_current (db_files_map (ensure_index w [root] n1 emptyDB) root)
    (walkOf w root) ((ensure_index w [root] n1 emptyDB), [])]
  rw [List.nil_append]
  rw [incr_fold_noop (db_files_map (ensure_index w [root] n1 emptyDB) root) (walkOf w root)
    (ensure_index w [root] n1 emptyDB) [] hA]
  rw [hdel2]
  exact List.filter_eq_self.mpr (fun a _ => rfl)

theorem ensure_index_idempotent_single_root_witness :
    (ensure_index world5 ["c:\\r"] (QE.ofInt 8)
        (ensure_index world5 ["c:\\r"] (QE.ofInt 6) emptyDB)).files
      = (ensure_index world5 ["c:\\r"] (QE.ofInt 6) emptyDB).files :=
  ensure_index_idempotent_single_root world5 "c:\\r" (QE.ofInt 6) (QE.ofInt 8) (by decide)
